import Mathlib

/-!
Verification of the diff rendering and annotation engine of the `diffman`
repository against its natural-language specification.

The Go sources are shallowly embedded: Go strings become `List Char` (so
`len([]rune s)` is `List.length`), Go `int` becomes `Int`, nullable `*int`
becomes `Option Int`, Go maps become lookup functions / association lists,
and fallible functions return `Except`.  The external go-diff library call
`sgdiff.ParseMultiFileDiff` is kept abstract: `ParseUnifiedDiff` takes the
library as a function parameter producing `FileDiff` values, and the
repository's own row-building loop over those values is embedded faithfully.
Terminal styling (lipgloss) only wraps text in invisible escape sequences and
never changes the visible runes, so every `style.Render(s)` call is embedded
as the identity on `s`; visual width is then plain rune count.
-/

namespace Diffman

/-- Side of a diff (package diffview `Side` and package comments `Side`,
which are two identical two-value Go enums: SideOld = 0, SideNew = 1). -/
inductive Side where
  | old : Side
  | new : Side
deriving DecidableEq, Repr

/-- RowKind from diffview: Context, Delete, Add, Change, HunkHeader, FileHeader. -/
inductive RowKind where
  | context : RowKind
  | delete : RowKind
  | add : RowKind
  | change : RowKind
  | hunkHeader : RowKind
  | fileHeader : RowKind
deriving DecidableEq, Repr

/-- DiffRow from diffview (struct DiffRow). -/
structure DiffRow where
  kind : RowKind
  oldLine : Option Int := none
  newLine : Option Int := none
  oldText : List Char := []
  newText : List Char := []
  path : List Char := []
  hunkID : Nat := 0
deriving DecidableEq, Repr

/-- One hunk as produced by the external go-diff library
(sgdiff.Hunk fields used by the repository's code). -/
structure Hunk where
  origStartLine : Int
  origLines : Int
  newStartLine : Int
  newLines : Int
  sectionHeader : List Char := []
  body : List Char := []
deriving DecidableEq, Repr

/-- One file diff as produced by the external go-diff library
(sgdiff.FileDiff fields used by the repository's code). -/
structure FileDiff where
  origName : List Char := []
  newName : List Char := []
  hunks : List Hunk := []
deriving DecidableEq, Repr

/-- Unicode White_Space test, as Go `unicode.IsSpace`.  The listed code
points are the complete White_Space set. -/
def isSpaceRune (c : Char) : Bool :=
  (0x09 ≤ c.toNat ∧ c.toNat ≤ 0x0D) ∨ c.toNat = 0x20 ∨ c.toNat = 0x85 ∨
    c.toNat = 0xA0 ∨ c.toNat = 0x1680 ∨
    (0x2000 ≤ c.toNat ∧ c.toNat ≤ 0x200A) ∨ c.toNat = 0x2028 ∨
    c.toNat = 0x2029 ∨ c.toNat = 0x202F ∨ c.toNat = 0x205F ∨ c.toNat = 0x3000

/-- Go `strings.TrimSpace`: drop leading and trailing white space. -/
def trimSpace (s : List Char) : List Char :=
  ((s.dropWhile isSpaceRune).reverse.dropWhile isSpaceRune).reverse

/-- Go `strings.TrimPrefix pre`: drop `pre` when it is a prefix, else keep `s`. -/
def trimPre (pre s : List Char) : List Char :=
  if pre.isPrefixOf s then s.drop pre.length else s

/-- Big-endian decimal digits of a natural number; matches the digit loop of
`fmtInt` in the comments package (prepend `n % 10`, continue with `n / 10`),
and also Go `fmt.Sprintf` `%d` formatting of a non-negative number. -/
def natDigitsBE (n : Nat) : List Char :=
  if h : n = 0 then []
  else natDigitsBE (n / 10) ++ [Char.ofNat (n % 10 + 48)]
decreasing_by exact Nat.div_lt_self (Nat.pos_of_ne_zero h) (by omega)

/-- `fmtInt` from the comments package: canonical decimal rendering of an
integer ("0" for zero, '-' prefix for negatives).  Also used to embed Go
`fmt.Sprintf` `%d`, which produces the same text. -/
def fmtInt (n : Int) : List Char :=
  if n = 0 then ['0']
  else if n < 0 then '-' :: natDigitsBE (-n).toNat
  else natDigitsBE n.toNat

/-- `Side.String` from the comments package. -/
def sideStr : Side → List Char
  | .old => 'o' :: 'l' :: 'd' :: []
  | .new => 'n' :: 'e' :: 'w' :: []

/-- `AnchorKey` from the comments package: `path + ":" + side.String() + ":" + fmtInt(line)`. -/
def AnchorKey (path : List Char) (side : Side) (line : Int) : List Char :=
  path ++ ':' :: (sideStr side ++ ':' :: fmtInt line)

/-- `normalizePath` from diffview/parse.go. -/
def normalizePath (fd : FileDiff) : List Char :=
  let path := if fd.newName = [] ∨ fd.newName = "/dev/null".data then fd.origName else fd.newName
  trimPre "b/".data (trimPre "a/".data (trimSpace path))

/-- `formatHunkHeader` from diffview/parse.go. -/
def formatHunkHeader (h : Hunk) : List Char :=
  let header := "@@ -".data ++ fmtInt h.origStartLine ++ [','] ++ fmtInt h.origLines ++
    " +".data ++ fmtInt h.newStartLine ++ [','] ++ fmtInt h.newLines ++ " @@".data
  if h.sectionHeader = [] then header else header ++ ' ' :: h.sectionHeader

/-- Go `strings.ReplaceAll s "\r\n" "\n"` (left-to-right, non-overlapping). -/
def replaceCRLF : List Char → List Char
  | [] => []
  | '\r' :: '\n' :: rest => '\n' :: replaceCRLF rest
  | c :: rest => c :: replaceCRLF rest

/-- Go `strings.Split s "\n"`: always returns at least one piece. -/
def splitOnNL : List Char → List (List Char)
  | [] => [[]]
  | '\n' :: rest => [] :: splitOnNL rest
  | c :: rest =>
    match splitOnNL rest with
    | [] => [[c]]
    | l :: ls => (c :: l) :: ls

/-- `splitHunkBody` from diffview/parse.go: normalize CRLF, split on newlines,
drop a trailing empty line. -/
def splitHunkBody (body : List Char) : List (List Char) :=
  let lines := splitOnNL (replaceCRLF body)
  if lines.getLast? = some [] then lines.dropLast else lines

/-- `stripPrefix` from diffview/parse.go: drop the leading marker byte of
each run line (empty lines stay empty). -/
def stripPrefix (lines : List (List Char)) : List (List Char) :=
  lines.map fun l =>
    match l with
    | [] => []
    | _ :: t => t

/-- The loop guard `len(lines[i]) > 0 && lines[i][0] == '-'` of the deletion
run collection in ParseUnifiedDiff. -/
def isDelLine : List Char → Bool
  | '-' :: _ => true
  | _ => false

/-- The loop guard `len(lines[i]) > 0 && lines[i][0] == '+'` of the addition
run collection in ParseUnifiedDiff. -/
def isAddLine : List Char → Bool
  | '+' :: _ => true
  | _ => false

/-- `pairEditRuns` from diffview/parse.go.  The Go loop runs an index `i`
from `0` to `max(len dels, len adds)`; row `i` takes its old side from
`dels[i]` and its new side from `adds[i]` when present, advancing the
corresponding line counter.  Embedded as simultaneous recursion on the two
run lists; the returned pair of integers is the final state of the two
counters Go mutates through pointers. -/
def pairEditRuns (path : List Char) (hunkID : Nat) (oldLn newLn : Int) :
    List (List Char) → List (List Char) → List DiffRow × Int × Int
  | [], [] => ([], oldLn, newLn)
  | d :: ds, [] =>
    let rest := pairEditRuns path hunkID (oldLn + 1) newLn ds []
    (⟨.delete, some oldLn, none, d, [], path, hunkID⟩ :: rest.1, rest.2)
  | [], a :: as' =>
    let rest := pairEditRuns path hunkID oldLn (newLn + 1) [] as'
    (⟨.add, none, some newLn, [], a, path, hunkID⟩ :: rest.1, rest.2)
  | d :: ds, a :: as' =>
    let rest := pairEditRuns path hunkID (oldLn + 1) (newLn + 1) ds as'
    (⟨.change, some oldLn, some newLn, d, a, path, hunkID⟩ :: rest.1, rest.2)

/-- Length of `dropWhile` never exceeds the length of the input. -/
theorem dropWhile_length_le (p : α → Bool) (l : List α) :
    (l.dropWhile p).length ≤ l.length := by
  induction l with
  | nil => simp [List.dropWhile]
  | cons a t ih =>
    rw [List.dropWhile_cons]
    split
    · exact Nat.le_succ_of_le ih
    · simp

/-- The hunk-body walk of ParseUnifiedDiff (the `for i < len(lines)` loop):
skip empty lines, context lines emit a Context row and advance both counters,
a deletion run grabs the following addition run and pairs them through
`pairEditRuns`, a bare addition run is paired with an empty deletion run,
`\`-lines are skipped, and any other first byte is a fatal error carrying
the offending line. -/
def parseHunkLines (path : List Char) (hunkID : Nat) (oldLn newLn : Int) :
    List (List Char) → Except (List Char) (List DiffRow)
  | [] => .ok []
  | [] :: rest => parseHunkLines path hunkID oldLn newLn rest
  | (' ' :: t) :: rest =>
    match parseHunkLines path hunkID (oldLn + 1) (newLn + 1) rest with
    | .error e => .error e
    | .ok rows =>
      .ok (⟨.context, some oldLn, some newLn, t, t, path, hunkID⟩ :: rows)
  | ('-' :: t) :: rest =>
    let delRaw := List.takeWhile isDelLine (('-' :: t) :: rest)
    let addRaw := List.takeWhile isAddLine (List.dropWhile isDelLine (('-' :: t) :: rest))
    let pr := pairEditRuns path hunkID oldLn newLn (stripPrefix delRaw) (stripPrefix addRaw)
    match parseHunkLines path hunkID pr.2.1 pr.2.2
        (List.dropWhile isAddLine (List.dropWhile isDelLine (('-' :: t) :: rest))) with
    | .error e => .error e
    | .ok rows => .ok (pr.1 ++ rows)
  | ('+' :: t) :: rest =>
    let addRaw := List.takeWhile isAddLine (('+' :: t) :: rest)
    let pr := pairEditRuns path hunkID oldLn newLn [] (stripPrefix addRaw)
    match parseHunkLines path hunkID pr.2.1 pr.2.2
        (List.dropWhile isAddLine (('+' :: t) :: rest)) with
    | .error e => .error e
    | .ok rows => .ok (pr.1 ++ rows)
  | ('\\' :: _) :: rest => parseHunkLines path hunkID oldLn newLn rest
  | l :: _ => .error l
termination_by lines => lines.length
decreasing_by
  · simp
  · simp
  · rw [List.dropWhile_cons_of_pos (by rfl)]
    have h2 := dropWhile_length_le isAddLine (List.dropWhile isDelLine rest)
    have h3 := dropWhile_length_le isDelLine rest
    simp only [List.length_cons]
    omega
  · rw [List.dropWhile_cons_of_pos (by rfl)]
    have h2 := dropWhile_length_le isAddLine rest
    simp only [List.length_cons]
    omega
  · simp

/-- The per-file inner loop of ParseUnifiedDiff: for each hunk (indexed by
`hunkID`), emit the HunkHeader row and then the parsed hunk body. -/
def parseHunks (path : List Char) (hunkID : Nat) : List Hunk → Except (List Char) (List DiffRow)
  | [] => .ok []
  | h :: hs =>
    match parseHunkLines path hunkID h.origStartLine h.newStartLine (splitHunkBody h.body) with
    | .error e => .error e
    | .ok bodyRows =>
      match parseHunks path (hunkID + 1) hs with
      | .error e => .error e
      | .ok restRows =>
        .ok (⟨.hunkHeader, none, none, formatHunkHeader h, [], path, hunkID⟩ :: bodyRows ++ restRows)

/-- The outer loop of ParseUnifiedDiff over the file diffs returned by the
external library: for each file, emit the FileHeader row
(`OldText = "File: " + path`) and then the rows of its hunks. -/
def parseFileDiffs : List FileDiff → Except (List Char) (List DiffRow)
  | [] => .ok []
  | fd :: fds =>
    let path := normalizePath fd
    match parseHunks path 0 fd.hunks with
    | .error e => .error e
    | .ok fileRows =>
      match parseFileDiffs fds with
      | .error e => .error e
      | .ok restRows =>
        .ok (⟨.fileHeader, none, none, "File: ".data ++ path, [], path, 0⟩ :: fileRows ++ restRows)

/-- `ParseUnifiedDiff` from diffview/parse.go: run the external go-diff
library (`sgParse`, abstract here) on the raw bytes, then build the row
sequence from the resulting file diffs. -/
def ParseUnifiedDiff (sgParse : List Char → Except (List Char) (List FileDiff))
    (raw : List Char) : Except (List Char) (List DiffRow) :=
  match sgParse raw with
  | .error e => .error e
  | .ok fds => parseFileDiffs fds

/-! ### Pairing of deletion/addition runs (claim C1) -/

/-- Row `i` of an index-aligned pairing of a deletion run with an addition
run: old side from deletion index `i` when present, new side from addition
index `i` when present; Change when both are present, otherwise Delete or
Add. -/
def pairRowAt (path : List Char) (hunkID : Nat) (oldLn newLn : Int)
    (dels adds : List (List Char)) (i : Nat) : DiffRow :=
  ⟨if i < dels.length then (if i < adds.length then .change else .delete) else .add,
    if i < dels.length then some (oldLn + i) else none,
    if i < adds.length then some (newLn + i) else none,
    dels.getD i [], adds.getD i [], path, hunkID⟩

theorem pairRowAt_succ_both (path : List Char) (hunkID : Nat) (o n : Int)
    (d a : List Char) (ds as : List (List Char)) (i : Nat) :
    pairRowAt path hunkID o n (d :: ds) (a :: as) (i + 1) =
      pairRowAt path hunkID (o + 1) (n + 1) ds as i := by
  unfold pairRowAt
  simp only [List.length_cons, List.getD_cons_succ, DiffRow.mk.injEq]
  refine ⟨?_, ?_, ?_, ?_, ?_, ?_, ?_⟩ <;>
    first
      | trivial
      | (split_ifs <;> first | rfl | omega | (congr 1; push_cast; ring))

theorem pairRowAt_succ_del (path : List Char) (hunkID : Nat) (o n : Int)
    (d : List Char) (ds : List (List Char)) (i : Nat) :
    pairRowAt path hunkID o n (d :: ds) [] (i + 1) =
      pairRowAt path hunkID (o + 1) n ds [] i := by
  unfold pairRowAt
  simp only [List.length_cons, List.length_nil, List.getD_cons_succ, DiffRow.mk.injEq]
  refine ⟨?_, ?_, ?_, ?_, ?_, ?_, ?_⟩ <;>
    first
      | trivial
      | (split_ifs <;> first | rfl | omega | (congr 1; push_cast; ring))

theorem pairRowAt_succ_add (path : List Char) (hunkID : Nat) (o n : Int)
    (a : List Char) (as : List (List Char)) (i : Nat) :
    pairRowAt path hunkID o n [] (a :: as) (i + 1) =
      pairRowAt path hunkID o (n + 1) [] as i := by
  unfold pairRowAt
  simp only [List.length_cons, List.length_nil, List.getD_cons_succ, DiffRow.mk.injEq]
  refine ⟨?_, ?_, ?_, ?_, ?_, ?_, ?_⟩ <;>
    first
      | trivial
      | (split_ifs <;> first | rfl | omega | (congr 1; push_cast; ring))

theorem pairEditRuns_fst (path : List Char) (hunkID : Nat) :
    ∀ (dels adds : List (List Char)) (oldLn newLn : Int),
    (pairEditRuns path hunkID oldLn newLn dels adds).1 =
      (List.range (max dels.length adds.length)).map
        (pairRowAt path hunkID oldLn newLn dels adds) := by
  intro dels
  induction dels with
  | nil =>
    intro adds
    induction adds with
    | nil => intro o n; simp [pairEditRuns]
    | cons a as ih =>
      intro o n
      simp only [pairEditRuns, List.length_nil, List.length_cons, Nat.zero_max,
        List.range_succ_eq_map, List.map_cons, List.map_map]
      rw [List.cons_eq_cons]
      constructor
      · simp [pairRowAt]
      · rw [ih o (n + 1)]
        simp only [List.length_nil, Nat.zero_max]
        apply List.map_congr_left
        intro i _
        simp only [Function.comp_apply, Nat.succ_eq_add_one]
        exact (pairRowAt_succ_add path hunkID o n a as i).symm
  | cons d ds ihd =>
    intro adds
    cases adds with
    | nil =>
      intro o n
      simp only [pairEditRuns, List.length_cons, List.length_nil, Nat.max_zero,
        List.range_succ_eq_map, List.map_cons, List.map_map]
      rw [List.cons_eq_cons]
      constructor
      · simp [pairRowAt]
      · rw [ihd [] (o + 1) n]
        simp only [List.length_nil, Nat.max_zero]
        apply List.map_congr_left
        intro i _
        simp only [Function.comp_apply, Nat.succ_eq_add_one]
        exact (pairRowAt_succ_del path hunkID o n d ds i).symm
    | cons a as =>
      intro o n
      simp only [pairEditRuns, List.length_cons, Nat.succ_max_succ,
        List.range_succ_eq_map, List.map_cons, List.map_map]
      rw [List.cons_eq_cons]
      constructor
      · simp [pairRowAt]
      · rw [ihd as (o + 1) (n + 1)]
        apply List.map_congr_left
        intro i _
        simp only [Function.comp_apply, Nat.succ_eq_add_one]
        exact (pairRowAt_succ_both path hunkID o n d a ds as i).symm

theorem pairEditRuns_counters (path : List Char) (hunkID : Nat) :
    ∀ (dels adds : List (List Char)) (oldLn newLn : Int),
    (pairEditRuns path hunkID oldLn newLn dels adds).2 =
      (oldLn + dels.length, newLn + adds.length) := by
  intro dels
  induction dels with
  | nil =>
    intro adds
    induction adds with
    | nil => intro o n; simp [pairEditRuns]
    | cons a as ih =>
      intro o n
      simp only [pairEditRuns, ih, List.length_nil, List.length_cons, Prod.mk.injEq]
      push_cast
      constructor <;> ring_nf
  | cons d ds ihd =>
    intro adds
    cases adds with
    | nil =>
      intro o n
      simp only [pairEditRuns, ihd, List.length_cons, List.length_nil, Prod.mk.injEq]
      push_cast
      constructor <;> ring_nf
    | cons a as =>
      intro o n
      simp only [pairEditRuns, ihd, List.length_cons, Prod.mk.injEq]
      push_cast
      constructor <;> ring_nf

theorem isDelLine_iff (l : List Char) : isDelLine l = true ↔ ∃ t, l = '-' :: t := by
  cases l with
  | nil => simp [isDelLine]
  | cons c t =>
    constructor
    · intro h
      refine ⟨t, ?_⟩
      by_contra hne
      have hc : c ≠ '-' := fun hc => hne (by rw [hc])
      simp [isDelLine] at h
      split at h
      · rename_i heq
        exact hc (by injection heq)
      · exact absurd h (by simp)
    · rintro ⟨t', ht⟩
      rw [ht]
      rfl

theorem isAddLine_iff (l : List Char) : isAddLine l = true ↔ ∃ t, l = '+' :: t := by
  cases l with
  | nil => simp [isAddLine]
  | cons c t =>
    constructor
    · intro h
      refine ⟨t, ?_⟩
      by_contra hne
      have hc : c ≠ '+' := fun hc => hne (by rw [hc])
      simp [isAddLine] at h
      split at h
      · rename_i heq
        exact hc (by injection heq)
      · exact absurd h (by simp)
    · rintro ⟨t', ht⟩
      rw [ht]
      rfl

theorem isDelLine_of_isAddLine (l : List Char) (h : isAddLine l = true) :
    isDelLine l = false := by
  obtain ⟨t, ht⟩ := (isAddLine_iff l).mp h
  rw [ht]
  rfl

theorem takeWhile_eq_nil_of_head (p : α → Bool) (l : List α)
    (h : ∀ x, l.head? = some x → p x = false) : l.takeWhile p = [] := by
  cases l with
  | nil => rfl
  | cons a t => exact List.takeWhile_cons_of_neg (by simp [h a rfl])

theorem dropWhile_eq_self_of_head (p : α → Bool) (l : List α)
    (h : ∀ x, l.head? = some x → p x = false) : l.dropWhile p = l := by
  cases l with
  | nil => rfl
  | cons a t => exact List.dropWhile_cons_of_neg (by simp [h a rfl])

theorem stripPrefix_length (lines : List (List Char)) :
    (stripPrefix lines).length = lines.length := by
  simp [stripPrefix]

/-- A maximal deletion run immediately followed by a maximal addition run is
taken off the hunk body in one step of the ParseUnifiedDiff loop and paired
through `pairEditRuns`; the loop then continues behind the runs with the old
counter advanced by the deletion count and the new counter by the addition
count. -/
theorem parseHunkLines_run (path : List Char) (hunkID : Nat) (o n : Int)
    (dels adds rest : List (List Char))
    (hdel : ∀ l ∈ dels, isDelLine l = true) (hne : dels ≠ [])
    (hadd : ∀ l ∈ adds, isAddLine l = true)
    (hra : ∀ l, rest.head? = some l → isAddLine l = false)
    (hrd : adds = [] → ∀ l, rest.head? = some l → isDelLine l = false) :
    parseHunkLines path hunkID o n (dels ++ adds ++ rest) =
      match parseHunkLines path hunkID (o + dels.length) (n + adds.length) rest with
      | .error e => .error e
      | .ok rows =>
        .ok ((pairEditRuns path hunkID o n (stripPrefix dels) (stripPrefix adds)).1 ++ rows) := by
  have htail : ∀ x, (adds ++ rest).head? = some x → isDelLine x = false := by
    intro x hx
    cases adds with
    | nil => exact hrd rfl x hx
    | cons a as =>
      simp only [List.cons_append, List.head?_cons, Option.some.injEq] at hx
      exact hx ▸ isDelLine_of_isAddLine a (hadd a (by simp))
  have htake1 : List.takeWhile isDelLine (dels ++ (adds ++ rest)) = dels := by
    rw [List.takeWhile_append_of_pos hdel, takeWhile_eq_nil_of_head _ _ htail, List.append_nil]
  have hdrop1 : List.dropWhile isDelLine (dels ++ (adds ++ rest)) = adds ++ rest := by
    rw [List.dropWhile_append_of_pos hdel, dropWhile_eq_self_of_head _ _ htail]
  have htake2 : List.takeWhile isAddLine (adds ++ rest) = adds := by
    rw [List.takeWhile_append_of_pos hadd, takeWhile_eq_nil_of_head _ _ hra, List.append_nil]
  have hdrop2 : List.dropWhile isAddLine (adds ++ rest) = rest := by
    rw [List.dropWhile_append_of_pos hadd, dropWhile_eq_self_of_head _ _ hra]
  obtain ⟨d0, dels', rfl⟩ : ∃ d0 dels', dels = d0 :: dels' := by
    cases dels with
    | nil => exact absurd rfl hne
    | cons d0 dels' => exact ⟨d0, dels', rfl⟩
  obtain ⟨t0, rfl⟩ := (isDelLine_iff d0).mp (hdel d0 (by simp))
  have hcons : ('-' :: t0) :: dels' ++ (adds ++ rest) =
      ('-' :: t0) :: (dels' ++ (adds ++ rest)) := by simp
  rw [List.append_assoc, hcons, parseHunkLines]
  simp only [← hcons, htake1, hdrop1, htake2, hdrop2]
  rw [pairEditRuns_counters]
  simp only [stripPrefix_length]

/-- C1.  For a hunk body beginning with a maximal run of `p` deletion lines
immediately followed by a maximal run of `q` addition lines, ParseUnifiedDiff
emits exactly `max p q` rows for the run pairing before the rows of the rest
of the body: row `i` takes old text and old line from deletion index `i`
(when `i < p`) and new text and new line from addition index `i` (when
`i < q`); the first `min p q` rows are Change and the remaining rows are
pure Delete (when `p > q`) or pure Add (when `q > p`); the line counters
advance by one per side present, resuming at `o + p` and `n + q`. -/
theorem c1_pair_delete_add_runs (path : List Char) (hunkID : Nat) (o n : Int)
    (dels adds rest : List (List Char))
    (hdel : ∀ l ∈ dels, isDelLine l = true) (hne : dels ≠ [])
    (hadd : ∀ l ∈ adds, isAddLine l = true)
    (hra : ∀ l, rest.head? = some l → isAddLine l = false)
    (hrd : adds = [] → ∀ l, rest.head? = some l → isDelLine l = false) :
    (parseHunkLines path hunkID o n (dels ++ adds ++ rest) =
      match parseHunkLines path hunkID (o + dels.length) (n + adds.length) rest with
      | .error e => .error e
      | .ok rows =>
        .ok ((pairEditRuns path hunkID o n (stripPrefix dels) (stripPrefix adds)).1 ++ rows)) ∧
    (pairEditRuns path hunkID o n (stripPrefix dels) (stripPrefix adds)).1.length =
      max dels.length adds.length ∧
    (pairEditRuns path hunkID o n (stripPrefix dels) (stripPrefix adds)).2 =
      (o + dels.length, n + adds.length) ∧
    ∀ i (h : i < (pairEditRuns path hunkID o n (stripPrefix dels) (stripPrefix adds)).1.length),
      (((pairEditRuns path hunkID o n (stripPrefix dels) (stripPrefix adds)).1.get ⟨i, h⟩).oldLine
          = if i < dels.length then some (o + i) else none) ∧
      (((pairEditRuns path hunkID o n (stripPrefix dels) (stripPrefix adds)).1.get ⟨i, h⟩).oldText
          = (stripPrefix dels).getD i []) ∧
      (((pairEditRuns path hunkID o n (stripPrefix dels) (stripPrefix adds)).1.get ⟨i, h⟩).newLine
          = if i < adds.length then some (n + i) else none) ∧
      (((pairEditRuns path hunkID o n (stripPrefix dels) (stripPrefix adds)).1.get ⟨i, h⟩).newText
          = (stripPrefix adds).getD i []) ∧
      (((pairEditRuns path hunkID o n (stripPrefix dels) (stripPrefix adds)).1.get ⟨i, h⟩).kind
          = if i < min dels.length adds.length then RowKind.change
            else if adds.length < dels.length then RowKind.delete else RowKind.add) := by
  refine ⟨parseHunkLines_run path hunkID o n dels adds rest hdel hne hadd hra hrd, ?_, ?_, ?_⟩
  · rw [pairEditRuns_fst]
    simp [stripPrefix_length]
  · rw [pairEditRuns_counters]
    simp [stripPrefix_length]
  · intro i h
    have hlen : (pairEditRuns path hunkID o n (stripPrefix dels) (stripPrefix adds)).1.length =
        max dels.length adds.length := by
      rw [pairEditRuns_fst]
      simp [stripPrefix_length]
    have hi : i < max dels.length adds.length := hlen ▸ h
    have hget : (pairEditRuns path hunkID o n (stripPrefix dels) (stripPrefix adds)).1.get ⟨i, h⟩
        = pairRowAt path hunkID o n (stripPrefix dels) (stripPrefix adds) i := by
      have heq := pairEditRuns_fst path hunkID (stripPrefix dels) (stripPrefix adds) o n
      rw [List.get_eq_getElem, List.getElem_of_eq heq h, List.getElem_map, List.getElem_range]
    rw [hget]
    unfold pairRowAt
    simp only [stripPrefix_length]
    refine ⟨?_, ?_, ?_, ?_, ?_⟩ <;> first | trivial | (split_ifs <;> first | rfl | omega)

/-- Witness for C1 at a concrete input: deletion run of length 2, addition
run of length 1. -/
theorem c1_pair_delete_add_runs_witness :
    (pairEditRuns ['p'] 0 1 1 (stripPrefix [['-', 'a'], ['-', 'b']]) (stripPrefix [['+', 'c']])).1.length
      = max 2 1 := by
  have h := c1_pair_delete_add_runs ['p'] 0 1 1 [['-', 'a'], ['-', 'b']] [['+', 'c']] []
    (by decide) (by decide) (by decide) (by decide) (by decide)
  simpa using h.2.1

/-! ### Fatal parse errors on unrecognized prefixes (claim C8) -/

/-- A hunk body line that is non-empty and starts with a byte other than
space, '-', '+' or backslash. -/
def badBodyLine (l : List Char) : Prop :=
  ∃ c t, l = c :: t ∧ c ≠ ' ' ∧ c ≠ '-' ∧ c ≠ '+' ∧ c ≠ '\\'

theorem not_badBodyLine_of_isDelLine (l : List Char) (h : isDelLine l = true) :
    ¬ badBodyLine l := by
  obtain ⟨t, rfl⟩ := (isDelLine_iff l).mp h
  rintro ⟨c, t', hct, _, hc, _, _⟩
  exact hc (by injection hct with h1 _; exact h1.symm)

theorem not_badBodyLine_of_isAddLine (l : List Char) (h : isAddLine l = true) :
    ¬ badBodyLine l := by
  obtain ⟨t, rfl⟩ := (isAddLine_iff l).mp h
  rintro ⟨c, t', hct, _, _, hc, _⟩
  exact hc (by injection hct with h1 _; exact h1.symm)

/-- On a non-empty line whose first byte is none of the four recognized
prefixes, the hunk-body walk stops with that line as the error. -/
theorem parseHunkLines_badline (path : List Char) (hunkID : Nat) (o n : Int)
    (c : Char) (t : List Char) (rest : List (List Char))
    (h1 : c ≠ ' ') (h2 : c ≠ '-') (h3 : c ≠ '+') (h4 : c ≠ '\\') :
    parseHunkLines path hunkID o n ((c :: t) :: rest) = .error (c :: t) := by
  rw [parseHunkLines.eq_def]
  split
  · rename_i heq; exact absurd heq (by simp)
  · rename_i heq
    rw [List.cons_eq_cons] at heq
    exact absurd heq.1 (by simp)
  · rename_i t' rest' heq
    rw [List.cons_eq_cons] at heq
    have := heq.1
    rw [List.cons_eq_cons] at this
    exact absurd this.1 h1
  · rename_i t' rest' heq
    rw [List.cons_eq_cons] at heq
    have := heq.1
    rw [List.cons_eq_cons] at this
    exact absurd this.1 h2
  · rename_i t' rest' heq
    rw [List.cons_eq_cons] at heq
    have := heq.1
    rw [List.cons_eq_cons] at this
    exact absurd this.1 h3
  · rename_i t' rest' heq
    rw [List.cons_eq_cons] at heq
    have := heq.1
    rw [List.cons_eq_cons] at this
    exact absurd this.1 h4
  · rename_i l' rest' heq
    rw [List.cons_eq_cons] at heq
    rw [heq.1]

/-- The hunk-body walk fails whenever some body line is non-empty and starts
with an unrecognized byte: every line of the body is eventually examined,
and examining the bad line aborts the parse. -/
theorem parseHunkLines_error_of_bad (path : List Char) (hunkID : Nat) (o n : Int)
    (lines : List (List Char)) (hbad : ∃ l ∈ lines, badBodyLine l) :
    ∃ e, parseHunkLines path hunkID o n lines = .error e := by
  suffices H : ∀ N (lines : List (List Char)), lines.length ≤ N → ∀ o n : Int,
      (∃ l ∈ lines, badBodyLine l) → ∃ e, parseHunkLines path hunkID o n lines = .error e by
    exact H lines.length lines le_rfl o n hbad
  intro N
  induction N with
  | zero =>
    intro lines hlen o' n' hb
    cases lines with
    | nil => simp at hb
    | cons l rest => simp at hlen
  | succ N ih =>
    intro lines hlen o' n' hb
    cases lines with
    | nil => simp at hb
    | cons l rest =>
      simp only [List.length_cons, Nat.succ_le_succ_iff] at hlen
      obtain ⟨lb, hlb, hlbad⟩ := hb
      cases l with
      | nil =>
        have hb' : ∃ x ∈ rest, badBodyLine x := by
          rcases List.mem_cons.mp hlb with rfl | hmem
          · obtain ⟨c, t, hct, _⟩ := hlbad
            exact absurd hct (by simp)
          · exact ⟨lb, hmem, hlbad⟩
        obtain ⟨e, he⟩ := ih rest hlen o' n' hb'
        refine ⟨e, ?_⟩
        simp only [parseHunkLines]
        exact he
      | cons c t =>
        by_cases hsp : c = ' '
        · subst hsp
          have hb' : ∃ x ∈ rest, badBodyLine x := by
            rcases List.mem_cons.mp hlb with rfl | hmem
            · obtain ⟨c', t', hct, hc, _⟩ := hlbad
              exact absurd (by injection hct with e1 _; exact e1.symm) hc
            · exact ⟨lb, hmem, hlbad⟩
          obtain ⟨e, he⟩ := ih rest hlen (o' + 1) (n' + 1) hb'
          refine ⟨e, ?_⟩
          simp only [parseHunkLines]
          rw [he]
        · by_cases hd : c = '-'
          · subst hd
            have hmem2 : lb ∈ List.dropWhile isAddLine
                (List.dropWhile isDelLine (('-' :: t) :: rest)) := by
              have hsplit1 := List.takeWhile_append_dropWhile isDelLine (('-' :: t) :: rest)
              have hl1 : lb ∈ List.takeWhile isDelLine (('-' :: t) :: rest) ++
                  List.dropWhile isDelLine (('-' :: t) :: rest) := by rw [hsplit1]; exact hlb
              rcases List.mem_append.mp hl1 with hin | hin
              · exact absurd hlbad (not_badBodyLine_of_isDelLine lb (List.mem_takeWhile_imp hin))
              · have hsplit2 := List.takeWhile_append_dropWhile isAddLine
                  (List.dropWhile isDelLine (('-' :: t) :: rest))
                have hl2 : lb ∈ List.takeWhile isAddLine
                    (List.dropWhile isDelLine (('-' :: t) :: rest)) ++
                    List.dropWhile isAddLine (List.dropWhile isDelLine (('-' :: t) :: rest)) := by
                  rw [hsplit2]; exact hin
                rcases List.mem_append.mp hl2 with hin2 | hin2
                · exact absurd hlbad (not_badBodyLine_of_isAddLine lb (List.mem_takeWhile_imp hin2))
                · exact hin2
            have hlen2 : (List.dropWhile isAddLine
                (List.dropWhile isDelLine (('-' :: t) :: rest))).length ≤ N := by
              have ha : (List.dropWhile isDelLine (('-' :: t) :: rest)) =
                  List.dropWhile isDelLine rest := List.dropWhile_cons_of_pos (by rfl)
              have hb1 := dropWhile_length_le isAddLine (List.dropWhile isDelLine (('-' :: t) :: rest))
              have hb2 := dropWhile_length_le isDelLine rest
              rw [ha] at hb1 ⊢
              omega
            obtain ⟨e, he⟩ := ih _ hlen2 _ _ ⟨lb, hmem2, hlbad⟩
            refine ⟨e, ?_⟩
            simp only [parseHunkLines]
            rw [he]
          · by_cases hp : c = '+'
            · subst hp
              have hmem2 : lb ∈ List.dropWhile isAddLine (('+' :: t) :: rest) := by
                have hsplit := List.takeWhile_append_dropWhile isAddLine (('+' :: t) :: rest)
                have hl1 : lb ∈ List.takeWhile isAddLine (('+' :: t) :: rest) ++
                    List.dropWhile isAddLine (('+' :: t) :: rest) := by rw [hsplit]; exact hlb
                rcases List.mem_append.mp hl1 with hin | hin
                · exact absurd hlbad (not_badBodyLine_of_isAddLine lb (List.mem_takeWhile_imp hin))
                · exact hin
              have hlen2 : (List.dropWhile isAddLine (('+' :: t) :: rest)).length ≤ N := by
                have ha : List.dropWhile isAddLine (('+' :: t) :: rest) =
                    List.dropWhile isAddLine rest := List.dropWhile_cons_of_pos (by rfl)
                have hb2 := dropWhile_length_le isAddLine rest
                rw [ha]
                omega
              obtain ⟨e, he⟩ := ih _ hlen2 _ _ ⟨lb, hmem2, hlbad⟩
              refine ⟨e, ?_⟩
              simp only [parseHunkLines]
              rw [he]
            · by_cases hbs : c = '\\'
              · subst hbs
                have hb' : ∃ x ∈ rest, badBodyLine x := by
                  rcases List.mem_cons.mp hlb with rfl | hmem
                  · obtain ⟨c', t', hct, _, _, _, hc⟩ := hlbad
                    exact absurd (by injection hct with e1 _; exact e1.symm) hc
                  · exact ⟨lb, hmem, hlbad⟩
                obtain ⟨e, he⟩ := ih rest hlen o' n' hb'
                refine ⟨e, ?_⟩
                simp only [parseHunkLines]
                exact he
              · exact ⟨c :: t, parseHunkLines_badline path hunkID o' n' c t rest hsp hd hp hbs⟩

theorem parseHunks_error_of_bad (path : List Char) (hunkID : Nat) (hs : List Hunk)
    (hbad : ∃ h ∈ hs, ∃ l ∈ splitHunkBody h.body, badBodyLine l) :
    ∃ e, parseHunks path hunkID hs = .error e := by
  induction hs generalizing hunkID with
  | nil => simp at hbad
  | cons h hs ih =>
    obtain ⟨h0, hm, hl⟩ := hbad
    rcases List.mem_cons.mp hm with rfl | hmem
    · obtain ⟨e, he⟩ := parseHunkLines_error_of_bad path hunkID h0.origStartLine
        h0.newStartLine (splitHunkBody h0.body) hl
      refine ⟨e, ?_⟩
      simp only [parseHunks]
      rw [he]
    · cases hcase : parseHunkLines path hunkID h.origStartLine h.newStartLine
          (splitHunkBody h.body) with
      | error e =>
        refine ⟨e, ?_⟩
        simp only [parseHunks]
        rw [hcase]
      | ok rows =>
        obtain ⟨e, he⟩ := ih (hunkID + 1) ⟨h0, hmem, hl⟩
        refine ⟨e, ?_⟩
        simp only [parseHunks]
        rw [hcase, he]

theorem parseFileDiffs_error_of_bad (fds : List FileDiff)
    (hbad : ∃ fd ∈ fds, ∃ h ∈ fd.hunks, ∃ l ∈ splitHunkBody h.body, badBodyLine l) :
    ∃ e, parseFileDiffs fds = .error e := by
  induction fds with
  | nil => simp at hbad
  | cons fd fds ih =>
    obtain ⟨fd0, hm, hf⟩ := hbad
    rcases List.mem_cons.mp hm with rfl | hmem
    · obtain ⟨e, he⟩ := parseHunks_error_of_bad (normalizePath fd0) 0 fd0.hunks hf
      refine ⟨e, ?_⟩
      simp only [parseFileDiffs]
      rw [he]
    · cases hcase : parseHunks (normalizePath fd) 0 fd.hunks with
      | error e =>
        refine ⟨e, ?_⟩
        simp only [parseFileDiffs]
        rw [hcase]
      | ok rows =>
        obtain ⟨e, he⟩ := ih ⟨fd0, hmem, hf⟩
        refine ⟨e, ?_⟩
        simp only [parseFileDiffs]
        rw [hcase, he]

/-- C8.  Whenever any hunk body line is non-empty and begins with a byte
other than space, '-', '+' or backslash, ParseUnifiedDiff fails the whole
parse for that diff: it returns an error and hence no rows at all, with no
partial recovery for earlier hunks or files. -/
theorem c8_unrecognized_prefix_fatal
    (sgParse : List Char → Except (List Char) (List FileDiff)) (raw : List Char)
    (fds : List FileDiff) (hok : sgParse raw = .ok fds)
    (hbad : ∃ fd ∈ fds, ∃ h ∈ fd.hunks, ∃ l ∈ splitHunkBody h.body, badBodyLine l) :
    ∃ e, ParseUnifiedDiff sgParse raw = .error e ∧
      ∀ rows, ParseUnifiedDiff sgParse raw ≠ .ok rows := by
  obtain ⟨e, he⟩ := parseFileDiffs_error_of_bad fds hbad
  refine ⟨e, ?_, ?_⟩
  · rw [ParseUnifiedDiff, hok]
    exact he
  · intro rows hcontra
    rw [ParseUnifiedDiff, hok] at hcontra
    have hcontra2 : parseFileDiffs fds = .ok rows := hcontra
    rw [he] at hcontra2
    exact absurd hcontra2 (by simp)

/-- Witness for C8 at a concrete input: a single file whose only hunk body
contains the line "xbad", which starts with the unrecognized byte 'x'. -/
theorem c8_unrecognized_prefix_fatal_witness :
    ∃ e, ParseUnifiedDiff
        (fun _ => .ok [{ newName := "f".data,
                         hunks := [{ origStartLine := 1, origLines := 1, newStartLine := 1,
                                     newLines := 1, body := " ok\nxbad\n".data }] }])
        [] = .error e ∧
      ∀ rows, ParseUnifiedDiff
        (fun _ => .ok [{ newName := "f".data,
                         hunks := [{ origStartLine := 1, origLines := 1, newStartLine := 1,
                                     newLines := 1, body := " ok\nxbad\n".data }] }])
        [] ≠ .ok rows := by
  refine c8_unrecognized_prefix_fatal _ [] _ rfl ?_
  refine ⟨_, List.mem_singleton.mpr rfl, _, List.mem_singleton.mpr rfl, "xbad".data, ?_, ?_⟩
  · simp [splitHunkBody, replaceCRLF, splitOnNL]
  · exact ⟨'x', "bad".data, rfl, by decide, by decide, by decide, by decide⟩

/-! ### The parser's output kinds (claim C6) -/

/-- The sample diff from the repository's own parser test
(TestParseUnifiedDiffPairsDeleteAndAddRuns in the diffview package), as the
external library parses it: file `sample.txt` with one hunk
`@@ -1,4 +1,5 @@`. -/
def sampleFileDiff : FileDiff :=
  { origName := "a/sample.txt".data
    newName := "b/sample.txt".data
    hunks := [{ origStartLine := 1, origLines := 4, newStartLine := 1, newLines := 5,
                sectionHeader := []
                body := " keep\n-oldA\n-oldB\n+newA\n+newB\n+newC\n tail\n".data }] }

/-- C6 fails on the code: on the repository's own test diff the parser's
first emitted row has kind FileHeader (`rows = append(rows,
DiffRow{Kind: RowFileHeader, ...})` runs once per file), which is not one of
Context, Delete, Add, Change, HunkHeader.  The repository's own tests expect
the first row to be the hunk header, so the claim matches the documented
intent and the code contradicts its own tests. -/
theorem c6_parser_emits_fileHeader_row :
    ((ParseUnifiedDiff (fun _ => .ok [sampleFileDiff]) []).toOption.bind
        List.head?).map DiffRow.kind = some RowKind.fileHeader ∧
      RowKind.fileHeader ∉ [RowKind.context, RowKind.delete, RowKind.add,
        RowKind.change, RowKind.hunkHeader] := by
  constructor
  · simp [ParseUnifiedDiff, parseFileDiffs, parseHunks, parseHunkLines, sampleFileDiff,
      splitHunkBody, replaceCRLF, splitOnNL, normalizePath, trimSpace, trimPre,
      isSpaceRune, pairEditRuns, stripPrefix, isDelLine, isAddLine, Except.toOption]
  · decide

/-! ### Strictly increasing line numbers (claim C7) -/

/-- Body lines that advance the old-side counter: context and deletion lines. -/
def ctxOrDel : List Char → Bool
  | ' ' :: _ => true
  | '-' :: _ => true
  | _ => false

/-- Body lines that advance the new-side counter: context and addition lines. -/
def ctxOrAdd : List Char → Bool
  | ' ' :: _ => true
  | '+' :: _ => true
  | _ => false

/-- Number of old-side lines a hunk body consumes. -/
def oldConsumed (lines : List (List Char)) : Nat := lines.countP ctxOrDel

/-- Number of new-side lines a hunk body consumes. -/
def newConsumed (lines : List (List Char)) : Nat := lines.countP ctxOrAdd

/-- The `c` consecutive integers starting at `o`. -/
def intRange (o : Int) (c : Nat) : List Int :=
  (List.range c).map (fun i : Nat => o + (i : Int))

theorem intRange_zero (o : Int) : intRange o 0 = [] := by simp [intRange]

theorem intRange_cons (o : Int) (c : Nat) :
    o :: intRange (o + 1) c = intRange o (c + 1) := by
  simp only [intRange, List.range_succ_eq_map, List.map_cons, List.map_map]
  rw [List.cons_eq_cons]
  refine ⟨by simp, ?_⟩
  apply List.map_congr_left
  intro i _
  simp only [Function.comp_apply, Nat.succ_eq_add_one]
  push_cast
  ring

theorem intRange_append (o : Int) (a b : Nat) :
    intRange o a ++ intRange (o + a) b = intRange o (a + b) := by
  induction a generalizing o with
  | zero => simp [intRange_zero]
  | succ a ih =>
    have hn : a + 1 + b = (a + b) + 1 := by omega
    rw [hn, ← intRange_cons, ← intRange_cons, List.cons_append, List.cons_eq_cons]
    refine ⟨rfl, ?_⟩
    have hcast : o + ((a : Nat) + 1 : Nat) = (o + 1) + (a : Int) := by push_cast; ring
    rw [hcast]
    exact ih (o + 1)

theorem intRange_chain (o : Int) (c : Nat) : List.Chain' (· < ·) (intRange o c) := by
  induction c generalizing o with
  | zero => simp [intRange_zero]
  | succ c ih =>
    rw [← intRange_cons]
    rcases c with _ | c'
    · simp [intRange_zero]
    · rw [← intRange_cons]
      refine List.Chain'.cons (by omega) ?_
      rw [intRange_cons]
      exact ih (o + 1)

theorem intRange_mem_lower (o : Int) (c : Nat) (x : Int) (hx : x ∈ intRange o c) : o ≤ x := by
  simp only [intRange, List.mem_map, List.mem_range] at hx
  obtain ⟨i, _, rfl⟩ := hx
  omega

theorem intRange_getLast_lt (o : Int) (c : Nat) (x : Int)
    (hx : (intRange o c).getLast? = some x) : x < o + c := by
  have hmem : x ∈ intRange o c := List.mem_of_mem_getLast? (by simp [hx])
  simp only [intRange, List.mem_map, List.mem_range] at hmem
  obtain ⟨i, hi, rfl⟩ := hmem
  omega

theorem pairEditRuns_filterMap_old (path : List Char) (hunkID : Nat) :
    ∀ (dels adds : List (List Char)) (o n : Int),
    (pairEditRuns path hunkID o n dels adds).1.filterMap DiffRow.oldLine =
      intRange o dels.length := by
  intro dels
  induction dels with
  | nil =>
    intro adds
    induction adds with
    | nil => intro o n; simp [pairEditRuns, intRange_zero]
    | cons a as ih =>
      intro o n
      simp only [pairEditRuns, List.filterMap_cons]
      exact ih o (n + 1)
  | cons d ds ihd =>
    intro adds
    cases adds with
    | nil =>
      intro o n
      simp only [pairEditRuns, List.filterMap_cons, List.length_cons]
      rw [ihd [] (o + 1) n]
      exact intRange_cons o ds.length
    | cons a as =>
      intro o n
      simp only [pairEditRuns, List.filterMap_cons, List.length_cons]
      rw [ihd as (o + 1) (n + 1)]
      exact intRange_cons o ds.length

theorem pairEditRuns_filterMap_new (path : List Char) (hunkID : Nat) :
    ∀ (dels adds : List (List Char)) (o n : Int),
    (pairEditRuns path hunkID o n dels adds).1.filterMap DiffRow.newLine =
      intRange n adds.length := by
  intro dels
  induction dels with
  | nil =>
    intro adds
    induction adds with
    | nil => intro o n; simp [pairEditRuns, intRange_zero]
    | cons a as ih =>
      intro o n
      simp only [pairEditRuns, List.filterMap_cons, List.length_cons]
      rw [ih o (n + 1)]
      exact intRange_cons n as.length
  | cons d ds ihd =>
    intro adds
    cases adds with
    | nil =>
      intro o n
      simp only [pairEditRuns, List.filterMap_cons, List.length_nil]
      exact ihd [] (o + 1) n
    | cons a as =>
      intro o n
      simp only [pairEditRuns, List.filterMap_cons, List.length_cons]
      rw [ihd as (o + 1) (n + 1)]
      exact intRange_cons n as.length

theorem countP_all_true (p : α → Bool) (l : List α) (h : ∀ a ∈ l, p a = true) :
    l.countP p = l.length := List.countP_eq_length.mpr h

theorem countP_all_false (p : α → Bool) (l : List α) (h : ∀ a ∈ l, p a = false) :
    l.countP p = 0 := by
  rw [List.countP_eq_zero]
  intro a ha
  simp [h a ha]

/-- On success, the hunk-body walk emits exactly the consecutive old-side
line numbers `o, o+1, ...` (one per context or deletion line) and the
consecutive new-side line numbers `n, n+1, ...` (one per context or addition
line). -/
theorem parseHunkLines_ranges (path : List Char) (hunkID : Nat) :
    ∀ (lines : List (List Char)) (o n : Int) (rows : List DiffRow),
    parseHunkLines path hunkID o n lines = .ok rows →
    rows.filterMap DiffRow.oldLine = intRange o (oldConsumed lines) ∧
      rows.filterMap DiffRow.newLine = intRange n (newConsumed lines) := by
  suffices H : ∀ N (lines : List (List Char)), lines.length ≤ N → ∀ (o n : Int) rows,
      parseHunkLines path hunkID o n lines = .ok rows →
      rows.filterMap DiffRow.oldLine = intRange o (oldConsumed lines) ∧
        rows.filterMap DiffRow.newLine = intRange n (newConsumed lines) by
    exact fun lines o n rows hok => H lines.length lines le_rfl o n rows hok
  intro N
  induction N with
  | zero =>
    intro lines hlen o n rows hok
    cases lines with
    | nil =>
      simp only [parseHunkLines] at hok
      cases hok
      simp [oldConsumed, newConsumed, intRange_zero]
    | cons l rest => simp at hlen
  | succ N ih =>
    intro lines hlen o n rows hok
    cases lines with
    | nil =>
      simp only [parseHunkLines] at hok
      cases hok
      simp [oldConsumed, newConsumed, intRange_zero]
    | cons l rest =>
      simp only [List.length_cons, Nat.succ_le_succ_iff] at hlen
      cases l with
      | nil =>
        simp only [parseHunkLines] at hok
        have := ih rest hlen o n rows hok
        simpa [oldConsumed, newConsumed, ctxOrDel, ctxOrAdd] using this
      | cons c t =>
        by_cases hsp : c = ' '
        · subst hsp
          simp only [parseHunkLines] at hok
          cases hrec : parseHunkLines path hunkID (o + 1) (n + 1) rest with
          | error e => rw [hrec] at hok; exact absurd hok (by simp)
          | ok rows' =>
            rw [hrec] at hok
            simp only [Except.ok.injEq] at hok
            subst hok
            obtain ⟨ho, hn⟩ := ih rest hlen (o + 1) (n + 1) rows' hrec
            constructor
            · simp only [List.filterMap_cons, ho, oldConsumed, List.countP_cons,
                ctxOrDel]
              simp [intRange_cons, oldConsumed]
            · simp only [List.filterMap_cons, hn, newConsumed, List.countP_cons,
                ctxOrAdd]
              simp [intRange_cons, newConsumed]
        · by_cases hd : c = '-'
          · subst hd
            rw [parseHunkLines] at hok
            set delRaw := List.takeWhile isDelLine (('-' :: t) :: rest) with hdelRaw
            set addRaw := List.takeWhile isAddLine
              (List.dropWhile isDelLine (('-' :: t) :: rest)) with haddRaw
            set r2 := List.dropWhile isAddLine
              (List.dropWhile isDelLine (('-' :: t) :: rest)) with hr2
            set pr := pairEditRuns path hunkID o n (stripPrefix delRaw) (stripPrefix addRaw)
              with hpr
            cases hrec : parseHunkLines path hunkID pr.2.1 pr.2.2 r2 with
            | error e => rw [hrec] at hok; exact absurd hok (by simp)
            | ok rows' =>
              rw [hrec] at hok
              simp only [Except.ok.injEq] at hok
              subst hok
              have hlen2 : r2.length ≤ N := by
                have ha : List.dropWhile isDelLine (('-' :: t) :: rest) =
                    List.dropWhile isDelLine rest := List.dropWhile_cons_of_pos (by rfl)
                have hb1 := dropWhile_length_le isAddLine
                  (List.dropWhile isDelLine (('-' :: t) :: rest))
                have hb2 := dropWhile_length_le isDelLine rest
                rw [hr2]
                rw [ha] at hb1 ⊢
                omega
              have hcnt : pr.2.1 = o + (stripPrefix delRaw).length ∧
                  pr.2.2 = n + (stripPrefix addRaw).length := by
                rw [hpr, pairEditRuns_counters]
                exact ⟨rfl, rfl⟩
              obtain ⟨ho, hn⟩ := ih r2 hlen2 pr.2.1 pr.2.2 rows' hrec
              have hsplit : ('-' :: t) :: rest = delRaw ++ addRaw ++ r2 := by
                rw [hdelRaw, haddRaw, hr2]
                rw [List.append_assoc, List.takeWhile_append_dropWhile,
                  List.takeWhile_append_dropWhile]
              have hdelAll : ∀ x ∈ delRaw, isDelLine x = true := by
                intro x hx
                exact List.mem_takeWhile_imp hx
              have haddAll : ∀ x ∈ addRaw, isAddLine x = true := by
                intro x hx
                exact List.mem_takeWhile_imp hx
              have hoc : oldConsumed (('-' :: t) :: rest) =
                  delRaw.length + oldConsumed r2 := by
                rw [hsplit, oldConsumed, List.countP_append, List.countP_append]
                have h1 : delRaw.countP ctxOrDel = delRaw.length := by
                  apply countP_all_true
                  intro x hx
                  obtain ⟨t', rfl⟩ := (isDelLine_iff x).mp (hdelAll x hx)
                  rfl
                have h2 : addRaw.countP ctxOrDel = 0 := by
                  apply countP_all_false
                  intro x hx
                  obtain ⟨t', rfl⟩ := (isAddLine_iff x).mp (haddAll x hx)
                  rfl
                rw [h1, h2]
                rfl
              have hnc : newConsumed (('-' :: t) :: rest) =
                  addRaw.length + newConsumed r2 := by
                rw [hsplit, newConsumed, List.countP_append, List.countP_append]
                have h1 : delRaw.countP ctxOrAdd = 0 := by
                  apply countP_all_false
                  intro x hx
                  obtain ⟨t', rfl⟩ := (isDelLine_iff x).mp (hdelAll x hx)
                  rfl
                have h2 : addRaw.countP ctxOrAdd = addRaw.length := by
                  apply countP_all_true
                  intro x hx
                  obtain ⟨t', rfl⟩ := (isAddLine_iff x).mp (haddAll x hx)
                  rfl
                rw [h1, h2]
                ring_nf
                rfl
              constructor
              · rw [List.filterMap_append, ho, hcnt.1, hpr, pairEditRuns_filterMap_old,
                  stripPrefix_length, hoc, intRange_append]
              · rw [List.filterMap_append, hn, hcnt.2, hpr, pairEditRuns_filterMap_new,
                  stripPrefix_length, hnc, intRange_append]
          · by_cases hp : c = '+'
            · subst hp
              rw [parseHunkLines] at hok
              set addRaw := List.takeWhile isAddLine (('+' :: t) :: rest) with haddRaw
              set r2 := List.dropWhile isAddLine (('+' :: t) :: rest) with hr2
              set pr := pairEditRuns path hunkID o n [] (stripPrefix addRaw) with hpr
              cases hrec : parseHunkLines path hunkID pr.2.1 pr.2.2 r2 with
              | error e => rw [hrec] at hok; exact absurd hok (by simp)
              | ok rows' =>
                rw [hrec] at hok
                simp only [Except.ok.injEq] at hok
                subst hok
                have hlen2 : r2.length ≤ N := by
                  have ha : List.dropWhile isAddLine (('+' :: t) :: rest) =
                      List.dropWhile isAddLine rest := List.dropWhile_cons_of_pos (by rfl)
                  have hb2 := dropWhile_length_le isAddLine rest
                  rw [hr2, ha]
                  omega
                have hcnt : pr.2.1 = o ∧ pr.2.2 = n + (stripPrefix addRaw).length := by
                  rw [hpr, pairEditRuns_counters]
                  exact ⟨by simp, rfl⟩
                obtain ⟨ho, hn⟩ := ih r2 hlen2 pr.2.1 pr.2.2 rows' hrec
                have hsplit : ('+' :: t) :: rest = addRaw ++ r2 := by
                  rw [haddRaw, hr2, List.takeWhile_append_dropWhile]
                have haddAll : ∀ x ∈ addRaw, isAddLine x = true := by
                  intro x hx
                  exact List.mem_takeWhile_imp hx
                have hoc : oldConsumed (('+' :: t) :: rest) = oldConsumed r2 := by
                  rw [hsplit, oldConsumed, List.countP_append]
                  have h2 : addRaw.countP ctxOrDel = 0 := by
                    apply countP_all_false
                    intro x hx
                    obtain ⟨t', rfl⟩ := (isAddLine_iff x).mp (haddAll x hx)
                    rfl
                  rw [h2]
                  ring_nf
                  rfl
                have hnc : newConsumed (('+' :: t) :: rest) =
                    addRaw.length + newConsumed r2 := by
                  rw [hsplit, newConsumed, List.countP_append]
                  have h2 : addRaw.countP ctxOrAdd = addRaw.length := by
                    apply countP_all_true
                    intro x hx
                    obtain ⟨t', rfl⟩ := (isAddLine_iff x).mp (haddAll x hx)
                    rfl
                  rw [h2]
                  ring_nf
                  rfl
                constructor
                · rw [List.filterMap_append, ho, hcnt.1, hpr, pairEditRuns_filterMap_old,
                    hoc]
                  simp [intRange_zero]
                · rw [List.filterMap_append, hn, hcnt.2, hpr, pairEditRuns_filterMap_new,
                    stripPrefix_length, hnc, intRange_append]
            · by_cases hbs : c = '\\'
              · subst hbs
                simp only [parseHunkLines] at hok
                have := ih rest hlen o n rows hok
                simpa [oldConsumed, newConsumed, ctxOrDel, ctxOrAdd] using this
              · rw [parseHunkLines_badline path hunkID o n c t rest hsp hd hp hbs] at hok
                exact absurd hok (by simp)

/-- The hunks of one file appear in ascending order, as the unified-diff
format requires: each hunk's declared start lines lie at or beyond the end
of the lines the previous hunk consumes. -/
def hunksOrdered (hs : List Hunk) : Prop :=
  List.Chain'
    (fun h1 h2 =>
      h1.origStartLine + (oldConsumed (splitHunkBody h1.body) : Int) ≤ h2.origStartLine ∧
        h1.newStartLine + (newConsumed (splitHunkBody h1.body) : Int) ≤ h2.newStartLine)
    hs

theorem parseHunks_chain (path : List Char) :
    ∀ (hs : List Hunk) (hunkID : Nat) (rows : List DiffRow),
    parseHunks path hunkID hs = .ok rows → hunksOrdered hs →
    (List.Chain' (· < ·) (rows.filterMap DiffRow.oldLine) ∧
      List.Chain' (· < ·) (rows.filterMap DiffRow.newLine)) ∧
    (∀ h0 ∈ hs.head?,
      (∀ x ∈ rows.filterMap DiffRow.oldLine, h0.origStartLine ≤ x) ∧
      (∀ x ∈ rows.filterMap DiffRow.newLine, h0.newStartLine ≤ x)) := by
  intro hs
  induction hs with
  | nil =>
    intro hunkID rows hok _
    simp only [parseHunks] at hok
    cases hok
    simp
  | cons h hs ih =>
    intro hunkID rows hok hord
    rw [parseHunks] at hok
    cases hbody : parseHunkLines path hunkID h.origStartLine h.newStartLine
        (splitHunkBody h.body) with
    | error e => rw [hbody] at hok; exact absurd hok (by simp)
    | ok bodyRows =>
      rw [hbody] at hok
      cases hrest : parseHunks path (hunkID + 1) hs with
      | error e => rw [hrest] at hok; exact absurd hok (by simp)
      | ok restRows =>
        rw [hrest] at hok
        simp only [Except.ok.injEq] at hok
        subst hok
        obtain ⟨hbo, hbn⟩ := parseHunkLines_ranges path hunkID (splitHunkBody h.body)
          h.origStartLine h.newStartLine bodyRows hbody
        have hordtail : hunksOrdered hs := (List.chain'_cons'.mp hord).2
        obtain ⟨⟨hco, hcn⟩, hlow⟩ := ih (hunkID + 1) restRows hrest hordtail
        have hfo : (⟨.hunkHeader, none, none, formatHunkHeader h, [], path, hunkID⟩ ::
            bodyRows ++ restRows).filterMap DiffRow.oldLine =
            intRange h.origStartLine (oldConsumed (splitHunkBody h.body)) ++
              restRows.filterMap DiffRow.oldLine := by
          simp only [List.cons_append, List.filterMap_cons, List.filterMap_append, hbo]
        have hfn : (⟨.hunkHeader, none, none, formatHunkHeader h, [], path, hunkID⟩ ::
            bodyRows ++ restRows).filterMap DiffRow.newLine =
            intRange h.newStartLine (newConsumed (splitHunkBody h.body)) ++
              restRows.filterMap DiffRow.newLine := by
          simp only [List.cons_append, List.filterMap_cons, List.filterMap_append, hbn]
        have hnext : ∀ h2 ∈ hs.head?,
            h.origStartLine + (oldConsumed (splitHunkBody h.body) : Int) ≤ h2.origStartLine ∧
            h.newStartLine + (newConsumed (splitHunkBody h.body) : Int) ≤ h2.newStartLine := by
          intro h2 hh2
          cases hs with
          | nil => simp at hh2
          | cons h2' hs' =>
            simp only [List.head?_cons, Option.mem_def, Option.some.injEq] at hh2
            subst hh2
            exact (List.chain'_cons.mp hord).1
        refine ⟨⟨?_, ?_⟩, ?_⟩
        · rw [hfo, List.chain'_append]
          refine ⟨intRange_chain _ _, hco, ?_⟩
          intro x hx y hy
          have hxlt := intRange_getLast_lt _ _ x hx
          have hymem : y ∈ restRows.filterMap DiffRow.oldLine :=
            List.mem_of_mem_head? hy
          cases hs with
          | nil =>
            simp only [parseHunks] at hrest
            cases hrest
            simp at hymem
          | cons h2 hs' =>
            have hylow := ((hlow h2 (by simp)).1) y hymem
            have hord2 := hnext h2 (by simp)
            omega
        · rw [hfn, List.chain'_append]
          refine ⟨intRange_chain _ _, hcn, ?_⟩
          intro x hx y hy
          have hxlt := intRange_getLast_lt _ _ x hx
          have hymem : y ∈ restRows.filterMap DiffRow.newLine :=
            List.mem_of_mem_head? hy
          cases hs with
          | nil =>
            simp only [parseHunks] at hrest
            cases hrest
            simp at hymem
          | cons h2 hs' =>
            have hylow := ((hlow h2 (by simp)).2) y hymem
            have hord2 := hnext h2 (by simp)
            omega
        · intro h0 hh0
          simp only [List.head?_cons, Option.mem_def, Option.some.injEq] at hh0
          subst hh0
          constructor
          · intro x hx
            rw [hfo] at hx
            rcases List.mem_append.mp hx with hin | hin
            · exact intRange_mem_lower _ _ x hin
            · cases hs with
              | nil =>
                simp only [parseHunks] at hrest
                cases hrest
                simp at hin
              | cons h2 hs' =>
                have hylow := ((hlow h2 (by simp)).1) x hin
                have hord2 := hnext h2 (by simp)
                omega
          · intro x hx
            rw [hfn] at hx
            rcases List.mem_append.mp hx with hin | hin
            · exact intRange_mem_lower _ _ x hin
            · cases hs with
              | nil =>
                simp only [parseHunks] at hrest
                cases hrest
                simp at hin
              | cons h2 hs' =>
                have hylow := ((hlow h2 (by simp)).2) x hin
                have hord2 := hnext h2 (by simp)
                omega

/-- C7.  For a successfully parsed unified diff of one file whose hunks are
in ascending order (the standard unified-diff layout), the `oldLine` values
are strictly increasing across the rows that define an old-side line, and
likewise the `newLine` values across the rows that define a new-side line. -/
theorem c7_line_numbers_strictly_increasing
    (sgParse : List Char → Except (List Char) (List FileDiff)) (raw : List Char)
    (fd : FileDiff) (rows : List DiffRow)
    (hok : sgParse raw = .ok [fd])
    (hparsed : ParseUnifiedDiff sgParse raw = .ok rows)
    (hord : hunksOrdered fd.hunks) :
    List.Chain' (· < ·) (rows.filterMap DiffRow.oldLine) ∧
      List.Chain' (· < ·) (rows.filterMap DiffRow.newLine) := by
  rw [ParseUnifiedDiff, hok] at hparsed
  have hparsed2 : parseFileDiffs [fd] = .ok rows := hparsed
  rw [parseFileDiffs] at hparsed2
  cases hfile : parseHunks (normalizePath fd) 0 fd.hunks with
  | error e => rw [hfile] at hparsed2; exact absurd hparsed2 (by simp)
  | ok fileRows =>
    rw [hfile] at hparsed2
    have hnil : parseFileDiffs ([] : List FileDiff) = .ok [] := rfl
    rw [hnil] at hparsed2
    simp only [Except.ok.injEq] at hparsed2
    subst hparsed2
    obtain ⟨⟨hco, hcn⟩, _⟩ := parseHunks_chain (normalizePath fd) fd.hunks 0 fileRows
      hfile hord
    constructor
    · simpa using hco
    · simpa using hcn

/-- Witness for C7 at a concrete input: one file, one hunk with a context
line and a paired change line. -/
theorem c7_line_numbers_strictly_increasing_witness :
    ∃ rows, ParseUnifiedDiff
        (fun _ => .ok [(⟨[], 'f' :: [], [⟨1, 2, 1, 2, [], " a\n-b\n+c\n".data⟩]⟩ : FileDiff)])
        [] = .ok rows ∧
      (List.Chain' (· < ·) (rows.filterMap DiffRow.oldLine) ∧
        List.Chain' (· < ·) (rows.filterMap DiffRow.newLine)) := by
  cases hcase : ParseUnifiedDiff
      (fun _ => .ok [(⟨[], 'f' :: [], [⟨1, 2, 1, 2, [], " a\n-b\n+c\n".data⟩]⟩ : FileDiff)])
      [] with
  | error e =>
    exfalso
    rw [ParseUnifiedDiff] at hcase
    revert hcase
    simp [parseFileDiffs, parseHunks, parseHunkLines, splitHunkBody,
      replaceCRLF, splitOnNL, normalizePath, trimSpace, trimPre, isSpaceRune, pairEditRuns,
      stripPrefix, isDelLine, isAddLine]
  | ok rows =>
    refine ⟨rows, rfl, ?_⟩
    exact c7_line_numbers_strictly_increasing _ [] _ rows rfl hcase
      (by simp [hunksOrdered])

/-! ### Injectivity of AnchorKey (claim C9) -/

theorem char_toNat_ofNat (m : Nat) (h : m < 55296) : (Char.ofNat m).toNat = m := by
  have hv : m.isValidChar := Or.inl h
  rw [Char.ofNat, dif_pos hv]
  simp [Char.ofNatAux, Char.toNat, UInt32.toNat]

/-- Decimal decoding of a digit string (left fold, most significant first). -/
def decodeNat (s : List Char) : Nat :=
  s.foldl (fun acc c => acc * 10 + (c.toNat - 48)) 0

theorem decodeNat_append_digit (s : List Char) (d : Char) :
    decodeNat (s ++ [d]) = decodeNat s * 10 + (d.toNat - 48) := by
  simp [decodeNat, List.foldl_append]

theorem natDigitsBE_digits (n : Nat) :
    ∀ c ∈ natDigitsBE n, 48 ≤ c.toNat ∧ c.toNat ≤ 57 := by
  induction n using Nat.strong_induction_on with
  | _ n ih =>
    intro c hc
    by_cases h0 : n = 0
    · subst h0
      rw [natDigitsBE] at hc
      simp at hc
    · rw [natDigitsBE, dif_neg h0] at hc
      rcases List.mem_append.mp hc with hin | hin
      · exact ih (n / 10) (Nat.div_lt_self (Nat.pos_of_ne_zero h0) (by omega)) c hin
      · simp only [List.mem_singleton] at hin
        subst hin
        have hm : n % 10 + 48 < 55296 := by
          have := Nat.mod_lt n (show 0 < 10 by omega)
          omega
        rw [char_toNat_ofNat _ hm]
        have := Nat.mod_lt n (show 0 < 10 by omega)
        omega

theorem decodeNat_natDigitsBE (n : Nat) : decodeNat (natDigitsBE n) = n := by
  induction n using Nat.strong_induction_on with
  | _ n ih =>
    by_cases h0 : n = 0
    · subst h0
      rw [natDigitsBE]
      simp [decodeNat]
    · rw [natDigitsBE, dif_neg h0, decodeNat_append_digit,
        ih (n / 10) (Nat.div_lt_self (Nat.pos_of_ne_zero h0) (by omega))]
      have hm : n % 10 + 48 < 55296 := by
        have := Nat.mod_lt n (show 0 < 10 by omega)
        omega
      rw [char_toNat_ofNat _ hm]
      omega

theorem natDigitsBE_ne_nil (n : Nat) (h : n ≠ 0) : natDigitsBE n ≠ [] := by
  rw [natDigitsBE, dif_neg h]
  simp

theorem natDigitsBE_inj (a b : Nat) (h : natDigitsBE a = natDigitsBE b) : a = b := by
  have := decodeNat_natDigitsBE a
  rw [h, decodeNat_natDigitsBE] at this
  omega

theorem fmtInt_digits_or_minus (n : Int) :
    ∀ c ∈ fmtInt n, (48 ≤ c.toNat ∧ c.toNat ≤ 57) ∨ c.toNat = 45 := by
  intro c hc
  rcases lt_trichotomy n 0 with hn | hn | hn
  · rw [fmtInt, if_neg (by omega), if_pos hn] at hc
    rcases List.mem_cons.mp hc with rfl | hin
    · right; rfl
    · exact Or.inl (natDigitsBE_digits _ c hin)
  · subst hn
    rw [fmtInt, if_pos rfl] at hc
    simp only [List.mem_singleton] at hc
    subst hc
    left
    constructor <;> decide
  · rw [fmtInt, if_neg (by omega), if_neg (by omega)] at hc
    exact Or.inl (natDigitsBE_digits _ c hc)

theorem fmtInt_no_colon (n : Int) : ∀ c ∈ fmtInt n, c ≠ ':' := by
  intro c hc hcol
  subst hcol
  have h58 : (':' : Char).toNat = 58 := rfl
  rcases fmtInt_digits_or_minus n ':' hc with ⟨h1, h2⟩ | h1 <;> omega

theorem natDigitsBE_pos_ne_zero_str (m : Nat) (hm : m ≠ 0) : natDigitsBE m ≠ ['0'] := by
  intro hcontra
  have hdec := decodeNat_natDigitsBE m
  rw [hcontra] at hdec
  have h0 : decodeNat ['0'] = 0 := by decide
  omega

theorem natDigitsBE_head_not_minus (m : Nat) (c : Char) (cs : List Char)
    (h : natDigitsBE m = c :: cs) : c.toNat ≠ 45 := by
  have hdig := natDigitsBE_digits m c (h ▸ List.mem_cons_self c cs)
  omega

theorem fmtInt_inj (a b : Int) (h : fmtInt a = fmtInt b) : a = b := by
  rcases lt_trichotomy a 0 with ha | ha | ha <;> rcases lt_trichotomy b 0 with hb | hb | hb
  · rw [fmtInt, if_neg (by omega), if_pos ha, fmtInt, if_neg (by omega), if_pos hb] at h
    rw [List.cons_eq_cons] at h
    have := natDigitsBE_inj (-a).toNat (-b).toNat h.2
    omega
  · subst hb
    rw [fmtInt, if_neg (by omega), if_pos ha, fmtInt, if_pos rfl] at h
    rw [List.cons_eq_cons] at h
    exact absurd h.1 (by decide)
  · rw [fmtInt, if_neg (by omega), if_pos ha, fmtInt, if_neg (by omega), if_neg (by omega)] at h
    cases hd : natDigitsBE b.toNat with
    | nil => exact absurd hd (natDigitsBE_ne_nil b.toNat (by omega))
    | cons c cs =>
      rw [hd, List.cons_eq_cons] at h
      have := natDigitsBE_head_not_minus b.toNat c cs hd
      exact absurd (congrArg Char.toNat h.1.symm) (by simpa using this)
  · subst ha
    rw [fmtInt, if_pos rfl, fmtInt, if_neg (by omega), if_pos hb] at h
    rw [List.cons_eq_cons] at h
    exact absurd h.1 (by decide)
  · omega
  · subst ha
    rw [fmtInt, if_pos rfl, fmtInt, if_neg (by omega), if_neg (by omega)] at h
    exact absurd h.symm (natDigitsBE_pos_ne_zero_str b.toNat (by omega))
  · rw [fmtInt, if_neg (by omega), if_neg (by omega), fmtInt, if_neg (by omega), if_pos hb] at h
    cases hd : natDigitsBE a.toNat with
    | nil => exact absurd hd (natDigitsBE_ne_nil a.toNat (by omega))
    | cons c cs =>
      rw [hd, List.cons_eq_cons] at h
      have := natDigitsBE_head_not_minus a.toNat c cs hd
      exact absurd (congrArg Char.toNat h.1) (by simpa using this)
  · subst hb
    rw [fmtInt, if_neg (by omega), if_neg (by omega), fmtInt, if_pos rfl] at h
    exact absurd h (natDigitsBE_pos_ne_zero_str a.toNat (by omega))
  · rw [fmtInt, if_neg (by omega), if_neg (by omega), fmtInt, if_neg (by omega),
      if_neg (by omega)] at h
    have := natDigitsBE_inj a.toNat b.toNat h
    omega

/-- First-occurrence separator splitting: if neither first part contains the
separator, the decomposition is unique. -/
theorem sep_split_first (c : α) : ∀ (x1 y1 x2 y2 : List α),
    x1 ++ c :: y1 = x2 ++ c :: y2 → c ∉ x1 → c ∉ x2 → x1 = x2 ∧ y1 = y2 := by
  intro x1
  induction x1 with
  | nil =>
    intro y1 x2 y2 heq h1 h2
    cases x2 with
    | nil =>
      simp only [List.nil_append] at heq
      rw [List.cons_eq_cons] at heq
      exact ⟨rfl, heq.2⟩
    | cons d x2' =>
      simp only [List.nil_append, List.cons_append] at heq
      rw [List.cons_eq_cons] at heq
      exact absurd (heq.1 ▸ List.mem_cons_self d x2') (heq.1 ▸ h2)
  | cons d x1' ih =>
    intro y1 x2 y2 heq h1 h2
    cases x2 with
    | nil =>
      simp only [List.cons_append, List.nil_append] at heq
      rw [List.cons_eq_cons] at heq
      exact absurd (heq.1 ▸ List.mem_cons_self d x1') (heq.1 ▸ h1)
    | cons e x2' =>
      simp only [List.cons_append] at heq
      rw [List.cons_eq_cons] at heq
      have h1' : c ∉ x1' := fun hmem => h1 (List.mem_cons_of_mem d hmem)
      have h2' : c ∉ x2' := fun hmem => h2 (List.mem_cons_of_mem e hmem)
      obtain ⟨hx, hy⟩ := ih y1 x2' y2 heq.2 h1' h2'
      exact ⟨by rw [heq.1, hx], hy⟩

/-- Last-occurrence separator splitting: if neither second part contains the
separator, the decomposition is unique. -/
theorem sep_split_last (c : α) (x1 y1 x2 y2 : List α)
    (heq : x1 ++ c :: y1 = x2 ++ c :: y2) (h1 : c ∉ y1) (h2 : c ∉ y2) :
    x1 = x2 ∧ y1 = y2 := by
  have hrev : y1.reverse ++ c :: x1.reverse = y2.reverse ++ c :: x2.reverse := by
    have := congrArg List.reverse heq
    simpa [List.reverse_append] using this
  have h1' : c ∉ y1.reverse := by simpa using h1
  have h2' : c ∉ y2.reverse := by simpa using h2
  obtain ⟨hy, hx⟩ := sep_split_first c y1.reverse x1.reverse y2.reverse x2.reverse hrev h1' h2'
  constructor
  · have := congrArg List.reverse hx
    simpa using this
  · have := congrArg List.reverse hy
    simpa using this

theorem sideStr_no_colon (s : Side) : ':' ∉ sideStr s := by
  cases s <;> decide

theorem sideStr_inj (s1 s2 : Side) (h : sideStr s1 = sideStr s2) : s1 = s2 := by
  cases s1 <;> cases s2 <;> first | rfl | exact absurd h (by decide)

/-- C9.  AnchorKey is injective: two anchors with equal keys agree on path,
side and line — even when the path itself contains ':' characters, because
the side name and the decimal line number never contain ':', so the last two
':' separators of the key are unambiguous. -/
theorem c9_anchorKey_injective (path1 path2 : List Char) (side1 side2 : Side)
    (line1 line2 : Int)
    (h : AnchorKey path1 side1 line1 = AnchorKey path2 side2 line2) :
    path1 = path2 ∧ side1 = side2 ∧ line1 = line2 := by
  rw [AnchorKey, AnchorKey] at h
  have hassoc1 : path1 ++ ':' :: (sideStr side1 ++ ':' :: fmtInt line1) =
      (path1 ++ ':' :: sideStr side1) ++ ':' :: fmtInt line1 := by simp
  have hassoc2 : path2 ++ ':' :: (sideStr side2 ++ ':' :: fmtInt line2) =
      (path2 ++ ':' :: sideStr side2) ++ ':' :: fmtInt line2 := by simp
  rw [hassoc1, hassoc2] at h
  obtain ⟨h12, hline⟩ := sep_split_last ':' _ _ _ _ h
    (fun hmem => fmtInt_no_colon line1 ':' hmem rfl)
    (fun hmem => fmtInt_no_colon line2 ':' hmem rfl)
  obtain ⟨hpath, hside⟩ := sep_split_last ':' _ _ _ _ h12
    (sideStr_no_colon side1) (sideStr_no_colon side2)
  exact ⟨hpath, sideStr_inj _ _ hside, fmtInt_inj _ _ hline⟩

/-- Witness for C9 at a concrete input: a path containing ':' characters. -/
theorem c9_anchorKey_injective_witness :
    ('a' :: ':' :: 'b' :: []) = ('a' :: ':' :: 'b' :: []) ∧ Side.new = Side.new ∧
      (7 : Int) = 7 :=
  c9_anchorKey_injective ('a' :: ':' :: 'b' :: []) ('a' :: ':' :: 'b' :: [])
    Side.new Side.new 7 7 rfl

/-! ### Word-diff highlighter (claim C5) -/

/-- `token` from diffview/render (word tokenizer): text, whitespace flag and
half-open rune span in the original string. -/
structure WToken where
  text : List Char
  isSpace : Bool
  start : Nat
  stop : Nat
deriving DecidableEq, Repr

/-- `textRange` from diffview/render: a half-open rune-offset interval. -/
structure textRange where
  start : Nat
  stop : Nat
deriving DecidableEq, Repr

/-- The scanning loop of `tokenizeWords`: `cur` holds the current run in
reverse, starting at offset `curStart`; `i` is the offset of the next rune. -/
def tokenizeAux (cur : List Char) (curStart : Nat) (curSpace : Bool) (i : Nat) :
    List Char → List WToken
  | [] => [⟨cur.reverse, curSpace, curStart, i⟩]
  | c :: rest =>
    if isSpaceRune c = curSpace then tokenizeAux (c :: cur) curStart curSpace (i + 1) rest
    else ⟨cur.reverse, curSpace, curStart, i⟩ :: tokenizeAux [c] i (isSpaceRune c) (i + 1) rest

/-- `tokenizeWords` from diffview/render: split a string into maximal runs of
whitespace / non-whitespace runes, each with its span. -/
def tokenizeWords : List Char → List WToken
  | [] => []
  | c :: rest => tokenizeAux [c] 0 (isSpaceRune c) 1 rest

/-- The loop of `extractWords`, carrying the token index. -/
def extractWordsAux : Nat → List WToken → List (List Char) × List Nat
  | _, [] => ([], [])
  | i, tok :: rest =>
    let tail := extractWordsAux (i + 1) rest
    if tok.isSpace then tail else (tok.text :: tail.1, i :: tail.2)

/-- `extractWords` from diffview/render: the non-whitespace token texts and
their token indices. -/
def extractWords (tokens : List WToken) : List (List Char) × List Nat :=
  extractWordsAux 0 tokens

/-- The DP table of `lcsMatches`: `dp[i][j]` in the Go code is the LCS length
of the suffixes `a[i:]` and `b[j:]`, computed by exactly this recurrence
(`dp[i][j] = dp[i+1][j+1]+1` on equal heads, otherwise the larger of
`dp[i+1][j]` and `dp[i][j+1]`). -/
def lcsLen : List (List Char) → List (List Char) → Nat
  | [], _ => 0
  | _ :: _, [] => 0
  | x :: xs, y :: ys =>
    if x = y then lcsLen xs ys + 1
    else max (lcsLen xs (y :: ys)) (lcsLen (x :: xs) ys)
termination_by a b => a.length + b.length
decreasing_by all_goals simp +arith

/-- The greedy forward walk of `lcsMatches`: on equal heads record the match,
otherwise advance the side with the larger remaining LCS length, preferring
the first list on ties (`dp[i+1][j] >= dp[i][j+1]` advances `i`).  Returns
the matched index sets of both sides (Go builds them as `map[int]bool`;
here they are the lists of matched indices). -/
def lcsWalk : List (List Char) → List (List Char) → Nat → Nat → List Nat × List Nat
  | [], _, _, _ => ([], [])
  | _ :: _, [], _, _ => ([], [])
  | x :: xs, y :: ys, i, j =>
    if x = y then
      let rest := lcsWalk xs ys (i + 1) (j + 1)
      (i :: rest.1, j :: rest.2)
    else if lcsLen xs (y :: ys) ≥ lcsLen (x :: xs) ys then
      lcsWalk xs (y :: ys) (i + 1) j
    else
      lcsWalk (x :: xs) ys i (j + 1)
termination_by a b _ _ => a.length + b.length
decreasing_by all_goals simp +arith

/-- `lcsMatches` from diffview/render. -/
def lcsMatches (a b : List (List Char)) : List Nat × List Nat :=
  lcsWalk a b 0 0

/-- The range-collection loops of `changedWordRanges`: walk the word-token
indices with their word index, skip matched words, and emit the token span of
every unmatched word. -/
def collectRangesAux (tokens : List WToken) (matched : List Nat) :
    Nat → List Nat → List textRange
  | _, [] => []
  | wordIdx, tokIdx :: rest =>
    let tail := collectRangesAux tokens matched (wordIdx + 1) rest
    if matched.contains wordIdx then tail
    else
      let tok := tokens.getD tokIdx ⟨[], false, 0, 0⟩
      ⟨tok.start, tok.stop⟩ :: tail

/-- The merging loop of `mergeRanges`, carrying the current range. -/
def mergeRangesAux (cur : textRange) : List textRange → List textRange
  | [] => [cur]
  | r :: rest =>
    if r.start ≤ cur.stop then mergeRangesAux ⟨cur.start, max cur.stop r.stop⟩ rest
    else cur :: mergeRangesAux r rest

/-- `mergeRanges` from diffview/render: fuse adjacent or overlapping ranges
into maximal runs. -/
def mergeRanges : List textRange → List textRange
  | [] => []
  | r :: rest => mergeRangesAux r rest

/-- `changedWordRanges` from diffview/render. -/
def changedWordRanges (oldText newText : List Char) : List textRange × List textRange :=
  let oldTokens := tokenizeWords oldText
  let newTokens := tokenizeWords newText
  let oldW := extractWords oldTokens
  let newW := extractWords newTokens
  let matched := lcsMatches oldW.1 newW.1
  (mergeRanges (collectRangesAux oldTokens matched.1 0 oldW.2),
    mergeRanges (collectRangesAux newTokens matched.2 0 newW.2))

/-- C5 fails on the code: on the pair `"x y"` / `"y x"` the tie-break of the
LCS walk prefers advancing the first argument, so both orders match the same
word of the first argument and the outputs do not swap. -/
theorem c5_counterexample_swap :
    ¬ (changedWordRanges "y x".data "x y".data =
        ((changedWordRanges "x y".data "y x".data).2,
          (changedWordRanges "x y".data "y x".data).1)) := by
  have h1 : changedWordRanges "x y".data "y x".data =
      ([⟨0, 1⟩], [⟨2, 3⟩]) := by
    simp [changedWordRanges, tokenizeWords, tokenizeAux, extractWords, extractWordsAux,
      lcsMatches, lcsWalk, lcsLen, collectRangesAux, mergeRanges, mergeRangesAux,
      isSpaceRune]
  have h2 : changedWordRanges "y x".data "x y".data =
      ([⟨0, 1⟩], [⟨2, 3⟩]) := by
    simp [changedWordRanges, tokenizeWords, tokenizeAux, extractWords, extractWordsAux,
      lcsMatches, lcsWalk, lcsLen, collectRangesAux, mergeRanges, mergeRangesAux,
      isSpaceRune]
  rw [h1, h2]
  decide

theorem lcsLen_comm (a b : List (List Char)) : lcsLen a b = lcsLen b a := by
  suffices H : ∀ N (a b : List (List Char)), a.length + b.length ≤ N →
      lcsLen a b = lcsLen b a by
    exact H (a.length + b.length) a b le_rfl
  intro N
  induction N with
  | zero =>
    intro a b hlen
    cases a with
    | nil =>
      cases b with
      | nil => rfl
      | cons y ys => simp at hlen
    | cons x xs => simp at hlen
  | succ N ih =>
    intro a b hlen
    cases a with
    | nil =>
      cases b with
      | nil => rfl
      | cons y ys => rw [lcsLen, lcsLen]
    | cons x xs =>
      cases b with
      | nil => rw [lcsLen, lcsLen]
      | cons y ys =>
        simp only [List.length_cons] at hlen
        rw [lcsLen, lcsLen]
        by_cases hxy : x = y
        · subst hxy
          rw [if_pos rfl, if_pos rfl, ih xs ys (by omega)]
        · rw [if_neg hxy, if_neg (fun hyx => hxy hyx.symm)]
          rw [ih xs (y :: ys) (by simp; omega), ih (x :: xs) ys (by simp; omega)]
          omega

theorem lcsWalk_lengths (a b : List (List Char)) (i j : Nat) :
    (lcsWalk a b i j).1.length = lcsLen a b ∧ (lcsWalk a b i j).2.length = lcsLen a b := by
  suffices H : ∀ N (a b : List (List Char)), a.length + b.length ≤ N → ∀ i j : Nat,
      (lcsWalk a b i j).1.length = lcsLen a b ∧
        (lcsWalk a b i j).2.length = lcsLen a b by
    exact H (a.length + b.length) a b le_rfl i j
  intro N
  induction N with
  | zero =>
    intro a b hlen i j
    cases a with
    | nil =>
      cases b with
      | nil => simp [lcsWalk, lcsLen]
      | cons y ys => simp at hlen
    | cons x xs => simp at hlen
  | succ N ih =>
    intro a b hlen i j
    cases a with
    | nil => simp [lcsWalk, lcsLen]
    | cons x xs =>
      cases b with
      | nil => simp [lcsWalk, lcsLen]
      | cons y ys =>
        simp only [List.length_cons] at hlen
        rw [lcsWalk, lcsLen]
        by_cases hxy : x = y
        · rw [if_pos hxy, if_pos hxy]
          obtain ⟨h1, h2⟩ := ih xs ys (by omega) (i + 1) (j + 1)
          constructor
          · simp [h1]
          · simp [h2]
        · rw [if_neg hxy, if_neg hxy]
          by_cases hge : lcsLen xs (y :: ys) ≥ lcsLen (x :: xs) ys
          · rw [if_pos hge]
            obtain ⟨h1, h2⟩ := ih xs (y :: ys) (by simp; omega) (i + 1) j
            constructor
            · rw [h1]; omega
            · rw [h2]; omega
          · rw [if_neg hge]
            obtain ⟨h1, h2⟩ := ih (x :: xs) ys (by simp; omega) i (j + 1)
            constructor
            · rw [h1]; omega
            · rw [h2]; omega

/-- C5 amended.  Swapping the two inputs of the word matcher preserves the
number of words matched on each side (both equal the LCS length, which is
symmetric); only the choice of which optimal alignment is reconstructed can
differ, because the tie-break of the walk prefers the first argument. -/
theorem c5_amended_match_counts_swap (a b : List (List Char)) :
    (lcsMatches a b).1.length = (lcsMatches b a).2.length ∧
      (lcsMatches a b).2.length = (lcsMatches b a).1.length := by
  obtain ⟨hab1, hab2⟩ := lcsWalk_lengths a b 0 0
  obtain ⟨hba1, hba2⟩ := lcsWalk_lengths b a 0 0
  rw [lcsMatches, lcsMatches]
  rw [hab1, hab2, hba1, hba2, lcsLen_comm]
  exact ⟨rfl, rfl⟩

/-! ### Split layout renderer (claims C2, C4, C10)

Styling is erased: lipgloss `Render` wraps text in escape sequences that are
invisible on screen and do not change the visible runes, so every
`style.Render(s)` in the source is embedded as `s` itself; `lipgloss.Width`
of the gutter prefix is its rune count (3). -/

/-- `SplitRender` from diffview/render. -/
structure SplitRender where
  OldLines : List (List Char)
  NewLines : List (List Char)
  RowStarts : List Nat
  RowHeights : List Nat
deriving DecidableEq, Repr

/-- `wrappedChunk` from diffview/render. -/
structure wrappedChunk where
  text : List Char
  start : Nat
deriving DecidableEq, Repr

/-- The digit-counting loop of `digits` (render helper). -/
def digitsLoop (n : Nat) : Nat :=
  if h : n = 0 then 0 else digitsLoop (n / 10) + 1
decreasing_by exact Nat.div_lt_self (Nat.pos_of_ne_zero h) (by omega)

/-- `digits` from diffview/render: decimal digit count, 1 for non-positive. -/
def digits (n : Int) : Nat :=
  if n ≤ 0 then 1 else digitsLoop n.toNat

/-- `expandTabs` from diffview/render: each tab becomes `tabSize` spaces
(coerced to 4 when non-positive). -/
def expandTabs (s : List Char) (tabSize : Int) : List Char :=
  let t : Nat := if tabSize ≤ 0 then 4 else tabSize.toNat
  s.flatMap fun c => if c = '\t' then List.replicate t ' ' else [c]

/-- `normalizeDisplayText` from diffview/render: strip carriage returns,
then expand tabs (to width 4) when any tab is present. -/
def normalizeDisplayText (s : List Char) : List Char :=
  let s2 := s.filter (· ≠ '\r')
  if s2.contains '\t' then expandTabs s2 4 else s2

/-- The chunking loop of `wrapRunesWithOffsets` (positive width `w`). -/
def wrapAux (w : Nat) : List Char → Nat → List wrappedChunk
  | s, start =>
    if w = 0 then [⟨s, start⟩]
    else if h : s.length ≤ w then [⟨s, start⟩]
    else ⟨s.take w, start⟩ :: wrapAux w (s.drop w) (start + w)
termination_by s => s.length
decreasing_by simp; omega

/-- `wrapRunesWithOffsets` from diffview/render: split into chunks of at most
`width` runes, each tagged with its starting offset; degenerate inputs give
one empty chunk. -/
def wrapRunesWithOffsets (s : List Char) (width : Int) : List wrappedChunk :=
  if width ≤ 0 then [⟨[], 0⟩]
  else if s = [] then [⟨[], 0⟩]
  else wrapAux width.toNat s 0

/-- `padSegments` from diffview/render: pad up to `height` with blank lines
of `max 1 width` spaces. -/
def padSegments (segs : List (List Char)) (width : Int) (height : Nat) : List (List Char) :=
  if height ≤ segs.length then segs
  else segs ++ List.replicate (height - segs.length) (List.replicate (max 1 width).toNat ' ')

/-- `padCommentSegments` from diffview/render: same padding, in the (erased)
inline-comment style. -/
def padCommentSegments (segs : List (List Char)) (width : Int) (height : Nat) :
    List (List Char) :=
  if height ≤ segs.length then segs
  else segs ++ List.replicate (height - segs.length) (List.replicate (max 1 width).toNat ' ')

/-- `renderGutterPrefix` from diffview/render: cursor mark, comment mark and
a space (the style only colors the two marks). -/
def renderGutterPrefix (isCursor hasAnyComment : Bool) : List Char :=
  (if isCursor then '>' else ' ') :: (if hasAnyComment then 'C' else ' ') :: [' ']

/-- `sideContent` from diffview/render: the line number, text and change
marker of one side, or `none` when the side is absent. -/
def sideContent (row : DiffRow) (side : Side) : Option (Int × List Char × Char) :=
  match side with
  | .old =>
    match row.oldLine with
    | none => none
    | some ln =>
      some (ln, row.oldText, if row.kind = .delete ∨ row.kind = .change then '-' else ' ')
  | .new =>
    match row.newLine with
    | none => none
    | some ln =>
      some (ln, row.newText, if row.kind = .add ∨ row.kind = .change then '+' else ' ')

/-- `hasCommentOnAnySide` from diffview/render: `nil` callbacks report no
comment. -/
def hasCommentOnAnySide (row : DiffRow)
    (hasComment : Option (List Char → Int → Side → Bool)) : Bool :=
  match hasComment with
  | none => false
  | some f =>
    (match row.oldLine with
      | some ln => f row.path ln .old
      | none => false) ||
    (match row.newLine with
      | some ln => f row.path ln .new
      | none => false)

/-- `highlightRanges` from diffview/render: word-diff ranges of one side of a
Change row. -/
def highlightRanges (row : DiffRow) (side : Side) : List textRange :=
  if row.kind = .change then
    let r := changedWordRanges (normalizeDisplayText row.oldText)
      (normalizeDisplayText row.newText)
    match side with
    | .old => r.1
    | .new => r.2
  else []

/-- `styleChunk` from diffview/render wraps the maximal same-highlight runs
of `text` in base or highlight styles and concatenates them in order; with
styling erased every `Render` call is the identity, so the concatenation of
the runs is `text` itself. -/
def styleChunk (text : List Char) (chunkStart : Nat) (ranges : List textRange) : List Char :=
  text

/-- Right-align `s` in a field of `w` characters (Go `fmt.Sprintf` with
`%*s`); wider strings are not truncated. -/
def padLeft (s : List Char) (w : Nat) : List Char :=
  List.replicate (w - s.length) ' ' ++ s

/-- The `"%c %*s "` meta field of a content row: change marker, space,
right-aligned line number, space. -/
def metaField (marker : Char) (numW : Nat) (num : List Char) : List Char :=
  marker :: ' ' :: (padLeft num numW ++ [' '])

/-- `renderRowSegments` from diffview/render (styling erased). -/
def renderRowSegments (row : DiffRow) (side : Side) (width : Int) (numW : Nat)
    (isCursor : Bool) (hasComment : Option (List Char → Int → Side → Bool)) :
    List (List Char) :=
  let pre := renderGutterPrefix isCursor (hasCommentOnAnySide row hasComment)
  let contPre := ' ' :: ' ' :: [' ']
  let lineWidth : Int := max 1 (width - 3)
  match row.kind with
  | .hunkHeader =>
    let text := normalizeDisplayText (if row.oldText = [] then row.newText else row.oldText)
    let chunks := wrapRunesWithOffsets text lineWidth
    let out := chunks.enum.map fun ci =>
      (if ci.1 = 0 then pre else contPre) ++ ci.2.text ++
        List.replicate (lineWidth.toNat - ci.2.text.length) ' '
    if out = [] then [pre ++ List.replicate lineWidth.toNat ' '] else out
  | .fileHeader => [pre ++ List.replicate lineWidth.toNat ' ']
  | _ =>
    match sideContent row side with
    | none => [pre ++ List.replicate lineWidth.toNat ' ']
    | some (ln, sideText, marker) =>
      let num := fmtInt ln
      let meta := metaField marker numW num
      let metaWidth := meta.length
      let textWidth : Int := max 1 (lineWidth - metaWidth)
      let plainText := normalizeDisplayText sideText
      let chunks0 := wrapRunesWithOffsets plainText textWidth
      let chunks := if chunks0 = [] then [⟨[], 0⟩] else chunks0
      let changed := highlightRanges row side
      let c0 := chunks.headD ⟨[], 0⟩
      let firstLine := pre ++ meta ++ styleChunk c0.text c0.start changed ++
        List.replicate (textWidth.toNat - c0.text.length) ' '
      let contMeta := List.replicate metaWidth ' '
      firstLine :: chunks.tail.map fun ch =>
        contPre ++ contMeta ++ styleChunk ch.text ch.start changed ++
          List.replicate (textWidth.toNat - ch.text.length) ' '

/-- `commentTextForSide` from diffview/render: `nil` callback means no
comment; absent sides have no comment. -/
def commentTextForSide (row : DiffRow) (side : Side)
    (commentText : Option (List Char → Int → Side → List Char × Bool)) :
    List Char × Bool :=
  match commentText with
  | none => ([], false)
  | some f =>
    match side with
    | .old =>
      match row.oldLine with
      | none => ([], false)
      | some ln => f row.path ln .old
    | .new =>
      match row.newLine with
      | none => ([], false)
      | some ln => f row.path ln .new

/-- `commentTextIndent` from diffview/render: gutter width 3 plus the width
of the `"%c %*s "` meta field of the side. -/
def commentTextIndent (row : DiffRow) (side : Side) (numW : Nat) : Nat :=
  match sideContent row side with
  | none => 3 + (metaField ' ' numW []).length
  | some (ln, _, marker) => 3 + (metaField marker numW (fmtInt ln)).length

/-- `renderInlineCommentSegments` from diffview/render (styling erased). -/
def renderInlineCommentSegments (commentBody : List Char) (width indent : Int) :
    List (List Char) :=
  let w : Int := if width ≤ 0 then 1 else width
  let ind : Int := if indent < 0 then 0 else if w ≤ indent then w - 1 else indent
  let textWidth : Int := max 1 (w - ind)
  let out := (splitOnNL commentBody).flatMap fun line =>
    let plain := normalizeDisplayText line
    let chunks0 := wrapRunesWithOffsets plain textWidth
    let chunks := if chunks0 = [] then [⟨[], 0⟩] else chunks0
    chunks.map fun ch =>
      let raw := List.replicate ind.toNat ' ' ++ ch.text
      raw ++ List.replicate (w.toNat - raw.length) ' '
  if out = [] then [List.replicate w.toNat ' '] else out

/-- `maxOld` of RenderSplitWithLayoutComments: the largest old-side line
number across the rows (0 when none). -/
def maxOldLine (rows : List DiffRow) : Int :=
  rows.foldl
    (fun m r =>
      match r.oldLine with
      | some l => max m l
      | none => m)
    0

/-- `maxNew` of RenderSplitWithLayoutComments. -/
def maxNewLine (rows : List DiffRow) : Int :=
  rows.foldl
    (fun m r =>
      match r.newLine with
      | some l => max m l
      | none => m)
    0

/-- The per-row pane computation of RenderSplitWithLayoutComments: both
sides' main segments padded to a common main height, followed by the inline
comment block (both sides padded to a common comment height) when a comment
callback is supplied and reports a comment on either side. -/
def rowPanes (oldWidth newWidth : Int) (oldNumW newNumW : Nat) (isCursor : Bool)
    (hasComment : Option (List Char → Int → Side → Bool))
    (commentText : Option (List Char → Int → Side → List Char × Bool))
    (row : DiffRow) : List (List Char) × List (List Char) :=
  let oldMain := renderRowSegments row .old oldWidth oldNumW isCursor hasComment
  let newMain := renderRowSegments row .new newWidth newNumW isCursor hasComment
  let mainHeight := max 1 (max oldMain.length newMain.length)
  let oldSegs := padSegments oldMain oldWidth mainHeight
  let newSegs := padSegments newMain newWidth mainHeight
  match commentText with
  | none => (oldSegs, newSegs)
  | some f =>
    let oc := commentTextForSide row .old (some f)
    let nc := commentTextForSide row .new (some f)
    if oc.2 || nc.2 then
      let oldIndent := commentTextIndent row .old oldNumW
      let newIndent := commentTextIndent row .new newNumW
      let oldCS := if oc.2 then renderInlineCommentSegments oc.1 oldWidth oldIndent else []
      let newCS := if nc.2 then renderInlineCommentSegments nc.1 newWidth newIndent else []
      let commentHeight := max 1 (max oldCS.length newCS.length)
      (oldSegs ++ padCommentSegments oldCS oldWidth commentHeight,
        newSegs ++ padCommentSegments newCS newWidth commentHeight)
    else (oldSegs, newSegs)

/-- The accumulating row loop of RenderSplitWithLayoutComments: record the
row start (current visual line count) and height, then append both panes
padded to the row height. -/
def renderLoop (oldWidth newWidth : Int) (oldNumW newNumW : Nat) (cursor : Int)
    (hasComment : Option (List Char → Int → Side → Bool))
    (commentText : Option (List Char → Int → Side → List Char × Bool)) :
    List DiffRow → Nat → SplitRender → SplitRender
  | [], _, out => out
  | row :: rest, i, out =>
    let panes := rowPanes oldWidth newWidth oldNumW newNumW (decide ((i : Int) = cursor))
      hasComment commentText row
    let height := max 1 (max panes.1.length panes.2.length)
    renderLoop oldWidth newWidth oldNumW newNumW cursor hasComment commentText rest (i + 1)
      ⟨out.OldLines ++ padSegments panes.1 oldWidth height,
        out.NewLines ++ padSegments panes.2 newWidth height,
        out.RowStarts ++ [out.OldLines.length],
        out.RowHeights ++ [height]⟩

/-- `RenderSplitWithLayoutComments` from diffview/render. -/
def RenderSplitWithLayoutComments (rows : List DiffRow) (oldWidth newWidth : Int)
    (cursor : Int) (hasComment : Option (List Char → Int → Side → Bool))
    (commentText : Option (List Char → Int → Side → List Char × Bool)) : SplitRender :=
  let ow := if oldWidth ≤ 0 then 1 else oldWidth
  let nw := if newWidth ≤ 0 then 1 else newWidth
  let oldNumW := max 3 (digits (maxOldLine rows))
  let newNumW := max 3 (digits (maxNewLine rows))
  renderLoop ow nw oldNumW newNumW cursor hasComment commentText rows 0 ⟨[], [], [], []⟩

/-- `RenderSplitWithLayout` from diffview/render: comment text callback nil. -/
def RenderSplitWithLayout (rows : List DiffRow) (oldWidth newWidth : Int) (cursor : Int)
    (hasComment : Option (List Char → Int → Side → Bool)) : SplitRender :=
  RenderSplitWithLayoutComments rows oldWidth newWidth cursor hasComment none

/-- `RenderSplit` from diffview/render. -/
def RenderSplit (rows : List DiffRow) (oldWidth newWidth : Int) (cursor : Int)
    (hasComment : Option (List Char → Int → Side → Bool)) :
    List (List Char) × List (List Char) :=
  let out := RenderSplitWithLayout rows oldWidth newWidth cursor hasComment
  (out.OldLines, out.NewLines)

/-! ### Layout invariants (claim C2)

The claim's witness follows the theorem below. -/

theorem padSegments_length (segs : List (List Char)) (w : Int) (h : Nat)
    (hle : segs.length ≤ h) : (padSegments segs w h).length = h := by
  rw [padSegments]
  split
  · omega
  · simp
    omega

/-- Prefix sums of the row heights: the visual line index at which each row
begins, starting from `base`. -/
def startsFrom (base : Nat) : List Nat → List Nat
  | [] => []
  | h :: hs => base :: startsFrom (base + h) hs

theorem startsFrom_length (base : Nat) (hs : List Nat) :
    (startsFrom base hs).length = hs.length := by
  induction hs generalizing base with
  | nil => rfl
  | cons h hs ih => simp [startsFrom, ih]

theorem startsFrom_head (base : Nat) (hs : List Nat) (h0 : 0 < (startsFrom base hs).length) :
    (startsFrom base hs).get ⟨0, h0⟩ = base := by
  cases hs with
  | nil => simp [startsFrom] at h0
  | cons h hs => rfl

theorem startsFrom_succ (hs : List Nat) : ∀ (base i : Nat)
    (h1 : i + 1 < (startsFrom base hs).length) (h2 : i < (startsFrom base hs).length)
    (h3 : i < hs.length),
    (startsFrom base hs).get ⟨i + 1, h1⟩ =
      (startsFrom base hs).get ⟨i, h2⟩ + hs.get ⟨i, h3⟩ := by
  induction hs with
  | nil =>
    intro base i h1 h2 h3
    simp [startsFrom] at h1
  | cons h hs ih =>
    intro base i h1 h2 h3
    cases i with
    | zero =>
      simp only [startsFrom]
      have hlen : 0 < (startsFrom (base + h) hs).length := by
        simp only [startsFrom, List.length_cons] at h1
        omega
      have := startsFrom_head (base + h) hs hlen
      simp only [List.get_cons_succ, List.get_cons_zero]
      exact this
    | succ i =>
      simp only [startsFrom, List.get_cons_succ]
      exact ih (base + h) i _ _ (by simpa using h3)

theorem startsFrom_last (hs : List Nat) : ∀ base : Nat, hs ≠ [] →
    ∃ s h, (startsFrom base hs).getLast? = some s ∧ hs.getLast? = some h ∧
      s + h = base + hs.sum := by
  induction hs with
  | nil => intro base hne; exact absurd rfl hne
  | cons h hs ih =>
    intro base _
    cases hs with
    | nil => exact ⟨base, h, by simp [startsFrom], by simp, by simp⟩
    | cons h2 hs2 =>
      obtain ⟨s, hval, h1, h2', h3⟩ := ih (base + h) (by simp)
      refine ⟨s, hval, ?_, ?_, ?_⟩
      · rw [startsFrom]
        rw [startsFrom] at h1 ⊢
        simpa using h1
      · simpa using h2'
      · simp only [List.sum_cons] at h3 ⊢
        omega

/-- The height of each row processed by the render loop, in order. -/
def heightsList (oldWidth newWidth : Int) (oldNumW newNumW : Nat) (cursor : Int)
    (hasComment : Option (List Char → Int → Side → Bool))
    (commentText : Option (List Char → Int → Side → List Char × Bool)) :
    List DiffRow → Nat → List Nat
  | [], _ => []
  | row :: rest, i =>
    let panes := rowPanes oldWidth newWidth oldNumW newNumW (decide ((i : Int) = cursor))
      hasComment commentText row
    max 1 (max panes.1.length panes.2.length) ::
      heightsList oldWidth newWidth oldNumW newNumW cursor hasComment commentText rest (i + 1)

theorem heightsList_length (ow nw : Int) (onw nnw : Nat) (cur : Int) (hc) (ct) :
    ∀ (rows : List DiffRow) (i : Nat),
    (heightsList ow nw onw nnw cur hc ct rows i).length = rows.length := by
  intro rows
  induction rows with
  | nil => intro i; rfl
  | cons row rest ih => intro i; simp [heightsList, ih]

theorem heightsList_pos (ow nw : Int) (onw nnw : Nat) (cur : Int) (hc) (ct) :
    ∀ (rows : List DiffRow) (i : Nat) (h : Nat),
    h ∈ heightsList ow nw onw nnw cur hc ct rows i → 1 ≤ h := by
  intro rows
  induction rows with
  | nil => intro i h hmem; simp [heightsList] at hmem
  | cons row rest ih =>
    intro i h hmem
    rw [heightsList] at hmem
    rcases List.mem_cons.mp hmem with rfl | hmem2
    · omega
    · exact ih (i + 1) h hmem2

theorem renderLoop_spec (ow nw : Int) (onw nnw : Nat) (cur : Int) (hc) (ct) :
    ∀ (rows : List DiffRow) (i : Nat) (out : SplitRender),
    (renderLoop ow nw onw nnw cur hc ct rows i out).RowHeights =
        out.RowHeights ++ heightsList ow nw onw nnw cur hc ct rows i ∧
    (renderLoop ow nw onw nnw cur hc ct rows i out).RowStarts =
        out.RowStarts ++ startsFrom out.OldLines.length
          (heightsList ow nw onw nnw cur hc ct rows i) ∧
    (renderLoop ow nw onw nnw cur hc ct rows i out).OldLines.length =
        out.OldLines.length + (heightsList ow nw onw nnw cur hc ct rows i).sum ∧
    (renderLoop ow nw onw nnw cur hc ct rows i out).NewLines.length =
        out.NewLines.length + (heightsList ow nw onw nnw cur hc ct rows i).sum := by
  intro rows
  induction rows with
  | nil =>
    intro i out
    simp [renderLoop, heightsList, startsFrom]
  | cons row rest ih =>
    intro i out
    rw [renderLoop, heightsList]
    set panes := rowPanes ow nw onw nnw (decide ((i : Int) = cur)) hc ct row with hpanes
    set h0 := max 1 (max panes.1.length panes.2.length) with hh0
    have hp1 : (padSegments panes.1 ow h0).length = h0 := padSegments_length _ _ _ (by omega)
    have hp2 : (padSegments panes.2 nw h0).length = h0 := padSegments_length _ _ _ (by omega)
    obtain ⟨ihh, ihs, iho, ihn⟩ := ih (i + 1) ⟨out.OldLines ++ padSegments panes.1 ow h0,
      out.NewLines ++ padSegments panes.2 nw h0,
      out.RowStarts ++ [out.OldLines.length], out.RowHeights ++ [h0]⟩
    refine ⟨?_, ?_, ?_, ?_⟩
    · rw [ihh]
      simp
    · rw [ihs]
      dsimp only
      rw [List.length_append, hp1]
      simp [startsFrom]
    · rw [iho]
      dsimp only
      rw [List.length_append, hp1]
      simp only [List.sum_cons]
      omega
    · rw [ihn]
      dsimp only
      rw [List.length_append, hp2]
      simp only [List.sum_cons]
      omega

/-- C2.  For every row sequence, pane widths, cursor index and comment
callbacks, the SplitRender satisfies: one rowStarts and rowHeights entry per
row, every height at least 1, rowStarts[0] = 0,
rowStarts[i+1] = rowStarts[i] + rowHeights[i], and both panes hold exactly
rowStarts[last] + rowHeights[last] visual lines. -/
theorem c2_layout_invariants (rows : List DiffRow) (oldWidth newWidth cursor : Int)
    (hasComment : Option (List Char → Int → Side → Bool))
    (commentText : Option (List Char → Int → Side → List Char × Bool)) :
    (RenderSplitWithLayoutComments rows oldWidth newWidth cursor hasComment
        commentText).RowStarts.length = rows.length ∧
    (RenderSplitWithLayoutComments rows oldWidth newWidth cursor hasComment
        commentText).RowHeights.length = rows.length ∧
    (∀ i (h : i < (RenderSplitWithLayoutComments rows oldWidth newWidth cursor hasComment
        commentText).RowHeights.length),
      1 ≤ (RenderSplitWithLayoutComments rows oldWidth newWidth cursor hasComment
        commentText).RowHeights.get ⟨i, h⟩) ∧
    (∀ h0 : 0 < (RenderSplitWithLayoutComments rows oldWidth newWidth cursor hasComment
        commentText).RowStarts.length,
      (RenderSplitWithLayoutComments rows oldWidth newWidth cursor hasComment
        commentText).RowStarts.get ⟨0, h0⟩ = 0) ∧
    (∀ i (h1 : i + 1 < (RenderSplitWithLayoutComments rows oldWidth newWidth cursor
        hasComment commentText).RowStarts.length)
      (h2 : i < (RenderSplitWithLayoutComments rows oldWidth newWidth cursor hasComment
        commentText).RowStarts.length)
      (h3 : i < (RenderSplitWithLayoutComments rows oldWidth newWidth cursor hasComment
        commentText).RowHeights.length),
      (RenderSplitWithLayoutComments rows oldWidth newWidth cursor hasComment
          commentText).RowStarts.get ⟨i + 1, h1⟩ =
        (RenderSplitWithLayoutComments rows oldWidth newWidth cursor hasComment
          commentText).RowStarts.get ⟨i, h2⟩ +
        (RenderSplitWithLayoutComments rows oldWidth newWidth cursor hasComment
          commentText).RowHeights.get ⟨i, h3⟩) ∧
    (RenderSplitWithLayoutComments rows oldWidth newWidth cursor hasComment
        commentText).OldLines.length =
      (RenderSplitWithLayoutComments rows oldWidth newWidth cursor hasComment
        commentText).NewLines.length ∧
    (RenderSplitWithLayoutComments rows oldWidth newWidth cursor hasComment
        commentText).OldLines.length =
      (RenderSplitWithLayoutComments rows oldWidth newWidth cursor hasComment
          commentText).RowStarts.getLastD 0 +
        (RenderSplitWithLayoutComments rows oldWidth newWidth cursor hasComment
          commentText).RowHeights.getLastD 0 := by
  have hspec := renderLoop_spec (if oldWidth ≤ 0 then 1 else oldWidth)
    (if newWidth ≤ 0 then 1 else newWidth)
    (max 3 (digits (maxOldLine rows))) (max 3 (digits (maxNewLine rows)))
    cursor hasComment commentText rows 0 ⟨[], [], [], []⟩
  obtain ⟨hh, hs, ho, hn⟩ := hspec
  have hout : RenderSplitWithLayoutComments rows oldWidth newWidth cursor hasComment
      commentText = renderLoop (if oldWidth ≤ 0 then 1 else oldWidth)
      (if newWidth ≤ 0 then 1 else newWidth)
      (max 3 (digits (maxOldLine rows))) (max 3 (digits (maxNewLine rows)))
      cursor hasComment commentText rows 0 ⟨[], [], [], []⟩ := rfl
  rw [hout]
  simp only [List.nil_append, List.length_nil, Nat.zero_add] at hh hs ho hn
  rw [hh, hs, ho, hn]
  set H := heightsList (if oldWidth ≤ 0 then 1 else oldWidth)
    (if newWidth ≤ 0 then 1 else newWidth)
    (max 3 (digits (maxOldLine rows))) (max 3 (digits (maxNewLine rows)))
    cursor hasComment commentText rows 0 with hHdef
  have hHlen : H.length = rows.length := heightsList_length _ _ _ _ _ _ _ rows 0
  refine ⟨?_, ?_, ?_, ?_, ?_, ?_, ?_⟩
  · rw [startsFrom_length, hHlen]
  · exact hHlen
  · intro i h
    exact heightsList_pos _ _ _ _ _ _ _ rows 0 _ (List.get_mem H i h)
  · intro h0
    exact startsFrom_head 0 H h0
  · intro i h1 h2 h3
    exact startsFrom_succ H 0 i h1 h2 h3
  · rfl
  · by_cases hne : H = []
    · rw [hne]
      simp [startsFrom]
    · obtain ⟨s, hval, h1, h2', h3⟩ := startsFrom_last H 0 hne
      rw [List.getLastD_eq_getLast?, List.getLastD_eq_getLast?, h1, h2']
      simp only [Option.getD_some]
      omega

/-- Witness for C2 at a concrete input: one context row, both panes 12 wide. -/
theorem c2_layout_invariants_witness :
    (RenderSplitWithLayoutComments [⟨.context, some 1, some 1, ['a'], ['a'], ['p'], 0⟩]
        12 12 0 none none).RowStarts.getD 0 5 = 0 := by
  have T := c2_layout_invariants [⟨.context, some 1, some 1, ['a'], ['a'], ['p'], 0⟩]
    12 12 0 none none
  have hlen : 0 < (RenderSplitWithLayoutComments
      [⟨.context, some 1, some 1, ['a'], ['a'], ['p'], 0⟩] 12 12 0 none
      none).RowStarts.length := by
    rw [T.1]
    simp
  have h0 := T.2.2.2.1 hlen
  rw [List.getD_eq_getElem _ _ hlen]
  rw [List.get_eq_getElem] at h0
  exact h0

/-! ### Nil comment callbacks (claim C10) -/

theorem hasCommentOnAnySide_none (row : DiffRow) :
    hasCommentOnAnySide row none = false := rfl

theorem hasCommentOnAnySide_constFalse (row : DiffRow) :
    hasCommentOnAnySide row (some fun _ _ _ => false) = false := by
  rw [hasCommentOnAnySide]
  cases row.oldLine <;> cases row.newLine <;> simp

theorem renderRowSegments_constFalse (row : DiffRow) (side : Side) (width : Int)
    (numW : Nat) (isCursor : Bool) :
    renderRowSegments row side width numW isCursor none =
      renderRowSegments row side width numW isCursor (some fun _ _ _ => false) := by
  rw [renderRowSegments, renderRowSegments, hasCommentOnAnySide_none,
    hasCommentOnAnySide_constFalse]

theorem commentTextForSide_constNone (row : DiffRow) (side : Side) :
    commentTextForSide row side (some fun _ _ _ => (([] : List Char), false)) = ([], false) := by
  cases side <;> cases hso : row.oldLine <;> cases hsn : row.newLine <;>
    simp [commentTextForSide, hso, hsn]

theorem rowPanes_nil_eq_constFalse (oldWidth newWidth : Int) (oldNumW newNumW : Nat)
    (isCursor : Bool) (row : DiffRow) :
    rowPanes oldWidth newWidth oldNumW newNumW isCursor none none row =
      rowPanes oldWidth newWidth oldNumW newNumW isCursor
        (some fun _ _ _ => false) (some fun _ _ _ => ([], false)) row := by
  rw [rowPanes, rowPanes, ← renderRowSegments_constFalse, ← renderRowSegments_constFalse]
  simp only [commentTextForSide_constNone]
  simp

/-- C10.  Rendering with nil comment callbacks is total and produces exactly
the same SplitRender as rendering with callbacks that always report no
comment: no comment gutter markers and no inline comment lines appear in
either case. -/
theorem c10_nil_callbacks_same_render (rows : List DiffRow)
    (oldWidth newWidth cursor : Int) :
    RenderSplitWithLayoutComments rows oldWidth newWidth cursor none none =
      RenderSplitWithLayoutComments rows oldWidth newWidth cursor
        (some fun _ _ _ => false) (some fun _ _ _ => ([], false)) := by
  rw [RenderSplitWithLayoutComments, RenderSplitWithLayoutComments]
  generalize (if oldWidth ≤ 0 then 1 else oldWidth) = ow
  generalize (if newWidth ≤ 0 then 1 else newWidth) = nw
  generalize max 3 (digits (maxOldLine rows)) = onw
  generalize max 3 (digits (maxNewLine rows)) = nnw
  suffices H : ∀ (rs : List DiffRow) (i : Nat) (out : SplitRender),
      renderLoop ow nw onw nnw cursor none none rs i out =
        renderLoop ow nw onw nnw cursor (some fun _ _ _ => false)
          (some fun _ _ _ => ([], false)) rs i out by
    exact H rows 0 ⟨[], [], [], []⟩
  intro rs
  induction rs with
  | nil => intro i out; rfl
  | cons row rest ih =>
    intro i out
    rw [renderLoop, renderLoop, ← rowPanes_nil_eq_constFalse, ih]

/-! ### Exact pane width (claim C4) -/

theorem wrapAux_chunk_le (w : Nat) (hw : w ≠ 0) :
    ∀ (s : List Char) (start : Nat) (ch : wrappedChunk),
    ch ∈ wrapAux w s start → ch.text.length ≤ w := by
  suffices H : ∀ N (s : List Char), s.length ≤ N → ∀ (start : Nat) ch,
      ch ∈ wrapAux w s start → ch.text.length ≤ w by
    exact fun s start ch hch => H s.length s le_rfl start ch hch
  intro N
  induction N with
  | zero =>
    intro s hlen start ch hch
    rw [wrapAux, if_neg hw] at hch
    rw [dif_pos (by omega)] at hch
    simp only [List.mem_singleton] at hch
    subst hch
    exact le_trans hlen (Nat.zero_le w)
  | succ N ih =>
    intro s hlen start ch hch
    rw [wrapAux, if_neg hw] at hch
    by_cases hsl : s.length ≤ w
    · rw [dif_pos hsl] at hch
      simp only [List.mem_singleton] at hch
      subst hch
      exact hsl
    · rw [dif_neg hsl] at hch
      rcases List.mem_cons.mp hch with rfl | hmem
      · simp only [List.length_take]
        omega
      · exact ih (s.drop w) (by simp; omega) (start + w) ch hmem

theorem wrapRunes_chunk_le (s : List Char) (width : Int) (hw : 1 ≤ width) :
    ∀ ch ∈ wrapRunesWithOffsets s width, ch.text.length ≤ width.toNat := by
  intro ch hch
  rw [wrapRunesWithOffsets, if_neg (by omega)] at hch
  split at hch
  · simp only [List.mem_singleton] at hch
    subst hch
    simp
  · exact wrapAux_chunk_le width.toNat (by omega) s 0 ch hch

theorem natDigitsBE_length (n : Nat) : (natDigitsBE n).length = digitsLoop n := by
  induction n using Nat.strong_induction_on with
  | _ n ih =>
    by_cases h0 : n = 0
    · subst h0
      rw [natDigitsBE, digitsLoop]
      simp
    · rw [natDigitsBE, dif_neg h0, digitsLoop, dif_neg h0]
      simp [ih (n / 10) (Nat.div_lt_self (Nat.pos_of_ne_zero h0) (by omega))]

theorem digitsLoop_step (m : Nat) (hm : m ≠ 0) : digitsLoop m = digitsLoop (m / 10) + 1 := by
  rw [digitsLoop, dif_neg hm]

theorem digitsLoop_mono (b : Nat) : ∀ a : Nat, a ≤ b → digitsLoop a ≤ digitsLoop b := by
  induction b using Nat.strong_induction_on with
  | _ b ih =>
    intro a hab
    by_cases ha : a = 0
    · subst ha
      rw [digitsLoop]
      simp
    · have hb : b ≠ 0 := by omega
      rw [digitsLoop_step a ha, digitsLoop_step b hb]
      have := ih (b / 10) (Nat.div_lt_self (Nat.pos_of_ne_zero hb) (by omega)) (a / 10)
        (Nat.div_le_div_right hab)
      omega

/-- A non-negative line number no larger than the column maximum formats into
at most `max 3 (digits maxLine)` characters. -/
theorem fmtInt_length_le (ln maxLine : Int) (h0 : 0 ≤ ln) (hle : ln ≤ maxLine) :
    (fmtInt ln).length ≤ max 3 (digits maxLine) := by
  by_cases hz : ln = 0
  · subst hz
    rw [fmtInt, if_pos rfl]
    simp
  · rw [fmtInt, if_neg hz, if_neg (by omega), natDigitsBE_length]
    rw [digits, if_neg (by omega)]
    have hmono := digitsLoop_mono maxLine.toNat ln.toNat (by omega)
    omega

/-- The line number of one side of a row. -/
def sideLine (side : Side) (row : DiffRow) : Option Int :=
  match side with
  | Side.old => row.oldLine
  | Side.new => row.newLine

/-- The side's line number fits in the number column. -/
def numFits (numW : Nat) (side : Side) (row : DiffRow) : Prop :=
  ∀ ln : Int, sideLine side row = some ln → (fmtInt ln).length ≤ numW

theorem metaField_length (marker : Char) (numW : Nat) (num : List Char)
    (hfit : num.length ≤ numW) : (metaField marker numW num).length = numW + 3 := by
  simp [metaField, padLeft]
  omega

theorem maxOldLine_bound (rows : List DiffRow) :
    ∀ r ∈ rows, ∀ l : Int, r.oldLine = some l → l ≤ maxOldLine rows := by
  suffices H : ∀ (rs : List DiffRow) (acc : Int), acc ≤ rs.foldl
      (fun m r =>
        match r.oldLine with
        | some l => max m l
        | none => m) acc ∧
      ∀ r ∈ rs, ∀ l : Int, r.oldLine = some l → l ≤ rs.foldl
        (fun m r =>
          match r.oldLine with
          | some l => max m l
          | none => m) acc by
    exact fun r hr l hl => (H rows 0).2 r hr l hl
  intro rs
  induction rs with
  | nil => intro acc; simp
  | cons r0 rest ih =>
    intro acc
    constructor
    · simp only [List.foldl_cons]
      refine le_trans ?_ (ih _).1
      cases h : r0.oldLine <;> simp [h, le_max_left]
    · intro r hr l hl
      simp only [List.foldl_cons]
      rcases List.mem_cons.mp hr with rfl | hmem
      · refine le_trans ?_ (ih _).1
        rw [hl]
        exact le_max_right _ _
      · exact (ih _).2 r hmem l hl

theorem maxNewLine_bound (rows : List DiffRow) :
    ∀ r ∈ rows, ∀ l : Int, r.newLine = some l → l ≤ maxNewLine rows := by
  suffices H : ∀ (rs : List DiffRow) (acc : Int), acc ≤ rs.foldl
      (fun m r =>
        match r.newLine with
        | some l => max m l
        | none => m) acc ∧
      ∀ r ∈ rs, ∀ l : Int, r.newLine = some l → l ≤ rs.foldl
        (fun m r =>
          match r.newLine with
          | some l => max m l
          | none => m) acc by
    exact fun r hr l hl => (H rows 0).2 r hr l hl
  intro rs
  induction rs with
  | nil => intro acc; simp
  | cons r0 rest ih =>
    intro acc
    constructor
    · simp only [List.foldl_cons]
      refine le_trans ?_ (ih _).1
      cases h : r0.newLine <;> simp [h, le_max_left]
    · intro r hr l hl
      simp only [List.foldl_cons]
      rcases List.mem_cons.mp hr with rfl | hmem
      · refine le_trans ?_ (ih _).1
        rw [hl]
        exact le_max_right _ _
      · exact (ih _).2 r hmem l hl

theorem sideContent_line (row : DiffRow) (side : Side) (ln : Int) (text : List Char)
    (marker : Char) (h : sideContent row side = some (ln, text, marker)) :
    sideLine side row = some ln := by
  cases side
  case old =>
    cases ho : row.oldLine with
    | none =>
      rw [sideContent] at h
      rw [ho] at h
      exact absurd h (by simp)
    | some v =>
      rw [sideContent] at h
      rw [ho] at h
      simp only [Option.some.injEq, Prod.mk.injEq] at h
      show row.oldLine = some ln
      rw [ho, h.1]
  case new =>
    cases ho : row.newLine with
    | none =>
      rw [sideContent] at h
      rw [ho] at h
      exact absurd h (by simp)
    | some v =>
      rw [sideContent] at h
      rw [ho] at h
      simp only [Option.some.injEq, Prod.mk.injEq] at h
      show row.newLine = some ln
      rw [ho, h.1]

theorem mem_headD_or (l : List α) (d : α) : l.headD d ∈ l ∨ (l = [] ∧ l.headD d = d) := by
  cases l with
  | nil => right; exact ⟨rfl, rfl⟩
  | cons a t => left; simp

/-- Every visual line of one side's row rendering has exactly the pane width
whenever the pane is wide enough for gutter, marker and number column
(`numW + 7` columns) and the side's line number fits the number column. -/
theorem renderRowSegments_width (row : DiffRow) (side : Side) (w : Int) (numW : Nat)
    (isCursor : Bool) (hc : Option (List Char → Int → Side → Bool))
    (hw : (numW : Int) + 7 ≤ w) (hfit : numFits numW side row) :
    ∀ seg ∈ renderRowSegments row side w numW isCursor hc, seg.length = w.toNat := by
  intro seg hseg
  have hpre : (renderGutterPrefix isCursor (hasCommentOnAnySide row hc)).length = 3 := by
    rw [renderGutterPrefix]
    rfl
  have hlw : max 1 (w - 3) = w - 3 := by omega
  have hlwn : (w - 3).toNat = w.toNat - 3 := by omega
  rw [renderRowSegments] at hseg
  cases hkind : row.kind <;> simp only [hkind] at hseg
  case hunkHeader =>
    rw [hlw] at hseg
    set T := normalizeDisplayText (if row.oldText = [] then row.newText else row.oldText)
      with hT
    split at hseg
    · simp only [List.mem_singleton] at hseg
      subst hseg
      simp only [List.length_append, List.length_replicate, hpre, hlwn]
      omega
    · simp only [List.mem_map] at hseg
      obtain ⟨ci, hci, rfl⟩ := hseg
      have hchunk : ci.2 ∈ wrapRunesWithOffsets T (w - 3) := List.snd_mem_of_mem_enum hci
      have hle := wrapRunes_chunk_le _ (w - 3) (by omega) _ hchunk
      rw [hlwn] at hle
      split
      · simp only [List.length_append, List.length_replicate, hpre, hlwn]
        omega
      · simp only [List.length_append, List.length_replicate, List.length_cons,
          List.length_nil, hlwn]
        omega
  case fileHeader =>
    simp only [List.mem_singleton] at hseg
    subst hseg
    simp only [List.length_append, List.length_replicate, hpre, hlw, hlwn]
    omega
  all_goals {
    rcases hsc : sideContent row side with _ | ⟨ln, sideText, marker⟩ <;>
      simp only [hsc] at hseg
    · simp only [List.mem_singleton] at hseg
      subst hseg
      simp only [List.length_append, List.length_replicate, hpre, hlw, hlwn]
      omega
    · have hnum : (fmtInt ln).length ≤ numW := hfit ln (sideContent_line row side ln _ _ hsc)
      have hmeta : (metaField marker numW (fmtInt ln)).length = numW + 3 :=
        metaField_length _ _ _ hnum
      rw [hlw, hmeta] at hseg
      have htw : max 1 (w - 3 - (numW + 3 : Nat)) = w - 3 - (numW + 3 : Nat) := by
        push_cast
        omega
      rw [htw] at hseg
      have htwn : ((w - 3 - (numW + 3 : Nat))).toNat = w.toNat - 3 - (numW + 3) := by
        push_cast
        omega
      have hchunkmem : ∀ ch : wrappedChunk,
          ch ∈ (if wrapRunesWithOffsets (normalizeDisplayText sideText)
              (w - 3 - (numW + 3 : Nat)) = [] then [(⟨[], 0⟩ : wrappedChunk)]
            else wrapRunesWithOffsets (normalizeDisplayText sideText)
              (w - 3 - (numW + 3 : Nat))) →
          ch.text.length ≤ w.toNat - 3 - (numW + 3) := by
        intro ch hch
        split at hch
        · simp only [List.mem_singleton] at hch
          subst hch
          simp
        · have := wrapRunes_chunk_le (normalizeDisplayText sideText)
            (w - 3 - (numW + 3 : Nat)) (by push_cast; omega) ch hch
          rw [htwn] at this
          exact this
      rcases List.mem_cons.mp hseg with rfl | htail
      · have hc0 := hchunkmem ((if wrapRunesWithOffsets (normalizeDisplayText sideText)
              (w - 3 - (numW + 3 : Nat)) = [] then [(⟨[], 0⟩ : wrappedChunk)]
            else wrapRunesWithOffsets (normalizeDisplayText sideText)
              (w - 3 - (numW + 3 : Nat))).headD ⟨[], 0⟩) (by
          rcases mem_headD_or (if wrapRunesWithOffsets (normalizeDisplayText sideText)
              (w - 3 - (numW + 3 : Nat)) = [] then [(⟨[], 0⟩ : wrappedChunk)]
            else wrapRunesWithOffsets (normalizeDisplayText sideText)
              (w - 3 - (numW + 3 : Nat))) ⟨[], 0⟩ with hmem | ⟨hnil, hd⟩
          · exact hmem
          · exfalso
            revert hnil
            split
            · simp
            · intro hx
              simp_all)
        simp only [styleChunk, List.length_append, List.length_replicate, hpre, hmeta, htwn]
        omega
      · simp only [List.mem_map] at htail
        obtain ⟨ch, hchmem, rfl⟩ := htail
        have hchle := hchunkmem ch (List.mem_of_mem_tail hchmem)
        simp only [styleChunk, List.length_append, List.length_replicate, List.length_cons,
          List.length_nil, htwn]
        omega
  }

theorem padCommentSegments_eq_padSegments : @padCommentSegments = @padSegments := rfl

theorem padSegments_mem (segs : List (List Char)) (w : Int) (h : Nat) :
    ∀ l ∈ padSegments segs w h, l ∈ segs ∨ l = List.replicate (max 1 w).toNat ' ' := by
  intro l hl
  rw [padSegments] at hl
  split at hl
  · exact Or.inl hl
  · rcases List.mem_append.mp hl with hin | hin
    · exact Or.inl hin
    · exact Or.inr (List.eq_of_mem_replicate hin)

theorem commentTextIndent_eq (row : DiffRow) (side : Side) (numW : Nat)
    (hfit : numFits numW side row) : commentTextIndent row side numW = numW + 6 := by
  rcases hsc : sideContent row side with _ | ⟨ln, text, marker⟩ <;>
    rw [commentTextIndent] <;> simp only [hsc]
  · rw [metaField_length ' ' numW [] (by simp)]
    omega
  · rw [metaField_length _ _ _ (hfit ln (sideContent_line _ _ _ _ _ hsc))]
    omega

theorem renderInlineCommentSegments_width (body : List Char) (w indent : Int)
    (hind : 0 ≤ indent) (hlt : indent < w) :
    ∀ line ∈ renderInlineCommentSegments body w indent, line.length = w.toNat := by
  intro line hline
  rw [renderInlineCommentSegments] at hline
  rw [if_neg (show ¬ w ≤ 0 by omega), if_neg (show ¬ indent < 0 by omega),
    if_neg (show ¬ w ≤ indent by omega)] at hline
  have htw : max 1 (w - indent) = w - indent := by omega
  rw [htw] at hline
  have htwn : (w - indent).toNat = w.toNat - indent.toNat := by omega
  split at hline
  · simp only [List.mem_singleton] at hline
    subst hline
    simp
  · simp only [List.mem_flatMap] at hline
    obtain ⟨l0, hl0, hline2⟩ := hline
    simp only [List.mem_map] at hline2
    obtain ⟨ch, hchmem, rfl⟩ := hline2
    have hchle : ch.text.length ≤ w.toNat - indent.toNat := by
      revert hchmem
      split
      · intro hch
        simp only [List.mem_singleton] at hch
        subst hch
        simp
      · intro hch
        have := wrapRunes_chunk_le (normalizeDisplayText l0) (w - indent) (by omega) ch hch
        rw [htwn] at this
        exact this
    simp only [List.length_append, List.length_replicate]
    omega

theorem rowPanes_width (row : DiffRow) (ow nw : Int) (onw nnw : Nat) (isCursor : Bool)
    (hc : Option (List Char → Int → Side → Bool))
    (ct : Option (List Char → Int → Side → List Char × Bool))
    (hw1 : (onw : Int) + 7 ≤ ow) (hw2 : (nnw : Int) + 7 ≤ nw)
    (hfo : numFits onw .old row) (hfn : numFits nnw .new row) :
    (∀ l ∈ (rowPanes ow nw onw nnw isCursor hc ct row).1, l.length = ow.toNat) ∧
    (∀ l ∈ (rowPanes ow nw onw nnw isCursor hc ct row).2, l.length = nw.toNat) := by
  have hmo := renderRowSegments_width row .old ow onw isCursor hc hw1 hfo
  have hmn := renderRowSegments_width row .new nw nnw isCursor hc hw2 hfn
  have hmow : (max 1 ow).toNat = ow.toNat := by omega
  have hmnw : (max 1 nw).toNat = nw.toNat := by omega
  have hio : (commentTextIndent row .old onw : Int) < ow := by
    rw [commentTextIndent_eq row .old onw hfo]
    push_cast
    omega
  have hinw : (commentTextIndent row .new nnw : Int) < nw := by
    rw [commentTextIndent_eq row .new nnw hfn]
    push_cast
    omega
  have hpad_old : ∀ h0, ∀ l ∈ padSegments
      (renderRowSegments row .old ow onw isCursor hc) ow h0, l.length = ow.toNat := by
    intro h0 l hl
    rcases padSegments_mem _ _ _ l hl with hin | rfl
    · exact hmo l hin
    · simp [hmow]
  have hpad_new : ∀ h0, ∀ l ∈ padSegments
      (renderRowSegments row .new nw nnw isCursor hc) nw h0, l.length = nw.toNat := by
    intro h0 l hl
    rcases padSegments_mem _ _ _ l hl with hin | rfl
    · exact hmn l hin
    · simp [hmnw]
  constructor
  · intro l hl
    rw [rowPanes.eq_def] at hl
    cases ct with
    | none =>
      dsimp only at hl
      exact hpad_old _ l hl
    | some f =>
      dsimp only at hl
      split at hl
      · rcases List.mem_append.mp hl with hin | hin
        · exact hpad_old _ l hin
        · rw [padCommentSegments_eq_padSegments] at hin
          rcases padSegments_mem _ _ _ l hin with hin2 | rfl
          · split at hin2
            · exact renderInlineCommentSegments_width _ ow _ (by positivity) hio l hin2
            · simp at hin2
          · simp [hmow]
      · exact hpad_old _ l hl
  · intro l hl
    rw [rowPanes.eq_def] at hl
    cases ct with
    | none =>
      dsimp only at hl
      exact hpad_new _ l hl
    | some f =>
      dsimp only at hl
      split at hl
      · rcases List.mem_append.mp hl with hin | hin
        · exact hpad_new _ l hin
        · rw [padCommentSegments_eq_padSegments] at hin
          rcases padSegments_mem _ _ _ l hin with hin2 | rfl
          · split at hin2
            · exact renderInlineCommentSegments_width _ nw _ (by positivity) hinw l hin2
            · simp at hin2
          · simp [hmnw]
      · exact hpad_new _ l hl

theorem renderLoop_width (ow nw : Int) (onw nnw : Nat) (cur : Int)
    (hc : Option (List Char → Int → Side → Bool))
    (ct : Option (List Char → Int → Side → List Char × Bool))
    (hw1 : (onw : Int) + 7 ≤ ow) (hw2 : (nnw : Int) + 7 ≤ nw) :
    ∀ (rs : List DiffRow) (i : Nat) (out : SplitRender),
    (∀ r ∈ rs, numFits onw .old r ∧ numFits nnw .new r) →
    (∀ l ∈ out.OldLines, l.length = ow.toNat) →
    (∀ l ∈ out.NewLines, l.length = nw.toNat) →
    (∀ l ∈ (renderLoop ow nw onw nnw cur hc ct rs i out).OldLines, l.length = ow.toNat) ∧
    (∀ l ∈ (renderLoop ow nw onw nnw cur hc ct rs i out).NewLines, l.length = nw.toNat) := by
  intro rs
  induction rs with
  | nil =>
    intro i out hfit hold hnew
    exact ⟨hold, hnew⟩
  | cons row rest ih =>
    intro i out hfit hold hnew
    rw [renderLoop]
    obtain ⟨hrp1, hrp2⟩ := rowPanes_width row ow nw onw nnw
      (decide ((i : Int) = cur)) hc ct hw1 hw2 (hfit row (by simp)).1 (hfit row (by simp)).2
    refine ih (i + 1) _ (fun r hr => hfit r (List.mem_cons_of_mem row hr)) ?_ ?_
    · intro l hl
      rcases List.mem_append.mp hl with hin | hin
      · exact hold l hin
      · rcases padSegments_mem _ _ _ l hin with hin2 | rfl
        · exact hrp1 l hin2
        · have : (max 1 ow).toNat = ow.toNat := by omega
          simp [this]
    · intro l hl
      rcases List.mem_append.mp hl with hin | hin
      · exact hnew l hin
      · rcases padSegments_mem _ _ _ l hin with hin2 | rfl
        · exact hrp2 l hin2
        · have : (max 1 nw).toNat = nw.toNat := by omega
          simp [this]

/-- C4 fails on the code at degenerate widths: at requested pane width 1 the
gutter (3 columns) and marker/number field (numW+3 ≥ 6 columns) are emitted
anyway, so the single context row renders as a 10-column line, not a
1-column line. -/
theorem c4_counterexample_width_one :
    ¬ (∀ line ∈ (RenderSplitWithLayoutComments
        [⟨.context, some 1, some 1, ['a'], ['a'], ['p'], 0⟩] 1 1 0 none none).OldLines,
        line.length = (1 : Int).toNat) := by
  intro hall
  have hol : (RenderSplitWithLayoutComments
      [⟨.context, some 1, some 1, ['a'], ['a'], ['p'], 0⟩] 1 1 0 none none).OldLines =
      [['>', ' ', ' ', ' ', ' ', ' ', ' ', '1', ' ', 'a']] := by
    simp [RenderSplitWithLayoutComments, renderLoop, rowPanes, renderRowSegments,
      renderGutterPrefix, hasCommentOnAnySide, sideContent, metaField, padLeft, fmtInt,
      natDigitsBE, normalizeDisplayText, expandTabs, wrapRunesWithOffsets, wrapAux,
      padSegments, maxOldLine, maxNewLine, digits, digitsLoop, styleChunk, highlightRanges,
      List.replicate]
  have := hall ['>', ' ', ' ', ' ', ' ', ' ', ' ', '1', ' ', 'a'] (by rw [hol]; simp)
  simp at this

/-- C4 amended.  Every emitted visual line has exactly the requested pane
width provided each pane is at least `numW + 7` columns wide (3-column
gutter, marker, space, `numW`-column number field, space, and one text
column, where `numW = max 3 (digits maxLine)` is the renderer's number-column
width for that side) and all line numbers are non-negative; at smaller
widths the gutter and number field overflow the requested width (see the
counterexample at width 1). -/
theorem c4_corrected_exact_width (rows : List DiffRow) (oldWidth newWidth cursor : Int)
    (hc : Option (List Char → Int → Side → Bool))
    (ct : Option (List Char → Int → Side → List Char × Bool))
    (hpos_old : ∀ r ∈ rows, ∀ l : Int, r.oldLine = some l → 0 ≤ l)
    (hpos_new : ∀ r ∈ rows, ∀ l : Int, r.newLine = some l → 0 ≤ l)
    (hw1 : ((max 3 (digits (maxOldLine rows)) : Nat) : Int) + 7 ≤ oldWidth)
    (hw2 : ((max 3 (digits (maxNewLine rows)) : Nat) : Int) + 7 ≤ newWidth) :
    (∀ line ∈ (RenderSplitWithLayoutComments rows oldWidth newWidth cursor hc ct).OldLines,
        line.length = oldWidth.toNat) ∧
    (∀ line ∈ (RenderSplitWithLayoutComments rows oldWidth newWidth cursor hc ct).NewLines,
        line.length = newWidth.toNat) := by
  have hfits : ∀ r ∈ rows, numFits (max 3 (digits (maxOldLine rows))) .old r ∧
      numFits (max 3 (digits (maxNewLine rows))) .new r := by
    intro r hr
    constructor
    · intro ln hln
      have hl : r.oldLine = some ln := hln
      exact fmtInt_length_le ln (maxOldLine rows) (hpos_old r hr ln hl)
        (maxOldLine_bound rows r hr ln hl)
    · intro ln hln
      have hl : r.newLine = some ln := hln
      exact fmtInt_length_le ln (maxNewLine rows) (hpos_new r hr ln hl)
        (maxNewLine_bound rows r hr ln hl)
  have how : (if oldWidth ≤ 0 then 1 else oldWidth) = oldWidth := by
    rw [if_neg (by omega)]
  have hnw : (if newWidth ≤ 0 then 1 else newWidth) = newWidth := by
    rw [if_neg (by omega)]
  have hout : RenderSplitWithLayoutComments rows oldWidth newWidth cursor hc ct =
      renderLoop oldWidth newWidth (max 3 (digits (maxOldLine rows)))
        (max 3 (digits (maxNewLine rows))) cursor hc ct rows 0 ⟨[], [], [], []⟩ := by
    rw [RenderSplitWithLayoutComments]
    rw [how, hnw]
  rw [hout]
  exact renderLoop_width oldWidth newWidth _ _ cursor hc ct hw1 hw2 rows 0 ⟨[], [], [], []⟩
    hfits (by simp) (by simp)

/-- Witness for C4 (amended) at a concrete input: one context row, panes 12
columns wide. -/
theorem c4_corrected_exact_width_witness :
    ((RenderSplitWithLayoutComments
        [⟨.context, some 1, some 1, ['a'], ['a'], ['p'], 0⟩] 12 12 0 none none).OldLines.all
      fun line => line.length == (12 : Int).toNat) = true := by
  rw [List.all_eq_true]
  intro line hl
  have T := (c4_corrected_exact_width [⟨.context, some 1, some 1, ['a'], ['a'], ['p'], 0⟩]
    12 12 0 none none
    (by
      intro r hr l hl2
      simp only [List.mem_singleton] at hr
      subst hr
      simp at hl2
      omega)
    (by
      intro r hr l hl2
      simp only [List.mem_singleton] at hr
      subst hr
      simp at hl2
      omega)
    (by simp [maxOldLine, digits, digitsLoop])
    (by simp [maxNewLine, digits, digitsLoop])).1
  simpa using T line hl

/-! ### Comment staleness reconciliation (claim C3)

`buildCommentStaleMap` from internal/app/model.go.  The Go function takes a
context, working directory, `DiffService` and diff mode; the service call
`diffSvc.Diff(ctx, cwd, path, mode)` is embedded as one function `fetch`
from a path to either an error or the raw diff text, and the external go-diff
library inside `diffview.ParseUnifiedDiff` is the `sgParse` parameter as
before.  The Go `map[string]bool` result is embedded as a lookup function,
and `byPath` (a Go map of slices, iterated in unspecified order) as an
association list in first-insertion order; the claim's property is
independent of the iteration order. -/

/-- `FileItem` from internal/git/status.go (one changed file). -/
structure FileItem where
  path : List Char
  status : List Char := []
  hasStaged : Bool := false
  hasUnstaged : Bool := false
deriving DecidableEq, Repr

/-- `Comment` from the comments package; the persisted metadata fields
(creation time, hunk header, context lines) never enter
`buildCommentStaleMap` and are omitted. -/
structure Comment where
  path : List Char
  side : Side
  line : Int
  body : List Char := []
deriving DecidableEq, Repr

/-- `commentKey` from internal/app/model.go. -/
def commentKey (c : Comment) : List Char := AnchorKey c.path c.side c.line

/-- Assignment into the Go `map[string]bool`. -/
def mapInsert (m : List Char → Option Bool) (k : List Char) (v : Bool) :
    List Char → Option Bool :=
  fun k' => if k' = k then some v else m k'

/-- The `fileSet` map of buildCommentStaleMap: which paths are changed. -/
def fileSet (items : List FileItem) (p : List Char) : Bool :=
  items.any fun it => it.path == p

/-- Appending a comment to `byPath[c.Path]` (Go map of slices; association
list in first-insertion order here). -/
def byPathAdd (bp : List (List Char × List Comment)) (c : Comment) :
    List (List Char × List Comment) :=
  match bp with
  | [] => [(c.path, [c])]
  | (p, g) :: rest =>
    if p = c.path then (p, g ++ [c]) :: rest else (p, g) :: byPathAdd rest c

/-- A `for _, c := range group` loop writing `stale[commentKey(c)] = f(c)`. -/
def foldInsert (f : Comment → Bool) (st : List Char → Option Bool) (g : List Comment) :
    List Char → Option Bool :=
  g.foldl (fun st c => mapInsert st (commentKey c) (f c)) st

/-- `stale[k] = !lines[c.Line]` of buildCommentStaleMap: a comment is fresh
exactly when some row exposes its line on its side. -/
def verdictForRows (rows : List DiffRow) (c : Comment) : Bool :=
  match c.side with
  | .old => !(rows.any fun r => decide (r.oldLine = some c.line))
  | .new => !(rows.any fun r => decide (r.newLine = some c.line))

/-- The per-path body of the `for path, group := range byPath` loop: fetch
the diff, mark the whole group stale on fetch error, effectively-empty text
or parse error, otherwise mark each comment by whether its `(side, line)`
is still present; the second component is the error to fold into
`firstErr`. -/
def staleForPath (sgParse : List Char → Except (List Char) (List FileDiff))
    (fetch : List Char → Except (List Char) (List Char))
    (st : List Char → Option Bool) (p : List Char) (group : List Comment) :
    (List Char → Option Bool) × Option (List Char) :=
  match fetch p with
  | .error e => (foldInsert (fun _ => true) st group, some e)
  | .ok d =>
    if trimSpace d = [] then (foldInsert (fun _ => true) st group, none)
    else
      match ParseUnifiedDiff sgParse d with
      | .error e => (foldInsert (fun _ => true) st group, some e)
      | .ok rows => (foldInsert (verdictForRows rows) st group, none)

/-- One step of the first loop of buildCommentStaleMap: a comment whose path
is not among the changed files is marked stale immediately, the others are
grouped by path. -/
def phase1Step (items : List FileItem)
    (acc : (List Char → Option Bool) × List (List Char × List Comment))
    (c : Comment) :
    (List Char → Option Bool) × List (List Char × List Comment) :=
  if fileSet items c.path then (acc.1, byPathAdd acc.2 c)
  else (mapInsert acc.1 (commentKey c) true, acc.2)

/-- The first loop of buildCommentStaleMap, started from the empty map and
empty grouping. -/
def phase1Run (items : List FileItem) (cs : List Comment) :
    (List Char → Option Bool) × List (List Char × List Comment) :=
  cs.foldl (phase1Step items) (fun _ => none, [])

/-- One step of the second loop of buildCommentStaleMap: process one path
group and keep the first fetch/parse error (`firstErr`). -/
def phase2Step (sgParse : List Char → Except (List Char) (List FileDiff))
    (fetch : List Char → Except (List Char) (List Char))
    (acc : (List Char → Option Bool) × Option (List Char))
    (pg : List Char × List Comment) :
    (List Char → Option Bool) × Option (List Char) :=
  let r := staleForPath sgParse fetch acc.1 pg.1 pg.2
  (r.1,
    match acc.2 with
    | some e => some e
    | none => r.2)

/-- `buildCommentStaleMap` from internal/app/model.go. -/
def buildCommentStaleMap (sgParse : List Char → Except (List Char) (List FileDiff))
    (fetch : List Char → Except (List Char) (List Char))
    (items : List FileItem) (allComments : List Comment) :
    (List Char → Option Bool) × Option (List Char) :=
  if allComments = [] then (fun _ => none, none)
  else
    (phase1Run items allComments).2.foldl (phase2Step sgParse fetch)
      ((phase1Run items allComments).1, none)

/-- The staleness condition as the specification words it: a comment is
stale iff (a) its path is not among the changed files, or (b) no diff could
be fetched or the fetched text is effectively empty or fails to parse, or
(c) the parsed diff has no row exposing its exact side and line. -/
def commentStaleSpec (sgParse : List Char → Except (List Char) (List FileDiff))
    (fetch : List Char → Except (List Char) (List Char))
    (items : List FileItem) (c : Comment) : Bool :=
  if fileSet items c.path = false then true
  else
    match fetch c.path with
    | .error _ => true
    | .ok d =>
      if trimSpace d = [] then true
      else
        match ParseUnifiedDiff sgParse d with
        | .error _ => true
        | .ok rows => verdictForRows rows c

theorem mapInsert_self (m : List Char → Option Bool) (k : List Char) (v : Bool) :
    mapInsert m k v k = some v := by
  simp [mapInsert]

theorem mapInsert_other (m : List Char → Option Bool) (k kq : List Char) (v : Bool)
    (h : kq ≠ k) : mapInsert m k v kq = m kq := by
  simp [mapInsert, h]

theorem foldInsert_frame (f : Comment → Bool) (g : List Comment) :
    ∀ (st : List Char → Option Bool) (k : List Char),
    (∀ c' ∈ g, commentKey c' ≠ k) → foldInsert f st g k = st k := by
  induction g with
  | nil => intro st k _; rfl
  | cons c0 rest ih =>
    intro st k h
    have hstep : foldInsert f st (c0 :: rest) =
        foldInsert f (mapInsert st (commentKey c0) (f c0)) rest := rfl
    rw [hstep, ih _ k (fun c' hc' => h c' (List.mem_cons_of_mem c0 hc'))]
    exact mapInsert_other st (commentKey c0) k (f c0)
      (fun he => h c0 (List.mem_cons_self c0 rest) he.symm)

theorem foldInsert_write (f : Comment → Bool) (g : List Comment) :
    ∀ (st : List Char → Option Bool) (c : Comment), c ∈ g →
    (∀ c' ∈ g, commentKey c' = commentKey c → f c' = f c) →
    foldInsert f st g (commentKey c) = some (f c) := by
  induction g with
  | nil => intro st c hc _; exact absurd hc (List.not_mem_nil c)
  | cons c0 rest ih =>
    intro st c hc hf
    have hstep : foldInsert f st (c0 :: rest) =
        foldInsert f (mapInsert st (commentKey c0) (f c0)) rest := rfl
    rw [hstep]
    by_cases hrest : ∃ c' ∈ rest, commentKey c' = commentKey c
    · obtain ⟨c1, hc1, hk1⟩ := hrest
      have hval : ∀ c' ∈ rest, commentKey c' = commentKey c1 → f c' = f c1 := by
        intro c2 hc2 hk2
        rw [hf c2 (List.mem_cons_of_mem c0 hc2) (hk2.trans hk1),
          hf c1 (List.mem_cons_of_mem c0 hc1) hk1]
      have hrun := ih (mapInsert st (commentKey c0) (f c0)) c1 hc1 hval
      rw [hk1] at hrun
      rw [hrun, hf c1 (List.mem_cons_of_mem c0 hc1) hk1]
    · push_neg at hrest
      rw [foldInsert_frame f rest (mapInsert st (commentKey c0) (f c0)) (commentKey c) hrest]
      have hc0 : c = c0 := by
        rcases List.mem_cons.mp hc with h | h
        · exact h
        · exact absurd rfl (hrest c h)
      subst hc0
      exact mapInsert_self st (commentKey c) (f c)

/-- AnchorKey is injective in all three components; shared helper used for
the key-collision arguments of the staleness map. -/
theorem anchorKey_components (path1 path2 : List Char) (side1 side2 : Side)
    (line1 line2 : Int)
    (h : AnchorKey path1 side1 line1 = AnchorKey path2 side2 line2) :
    path1 = path2 ∧ side1 = side2 ∧ line1 = line2 := by
  rw [AnchorKey, AnchorKey] at h
  have hassoc1 : path1 ++ ':' :: (sideStr side1 ++ ':' :: fmtInt line1) =
      (path1 ++ ':' :: sideStr side1) ++ ':' :: fmtInt line1 := by simp
  have hassoc2 : path2 ++ ':' :: (sideStr side2 ++ ':' :: fmtInt line2) =
      (path2 ++ ':' :: sideStr side2) ++ ':' :: fmtInt line2 := by simp
  rw [hassoc1, hassoc2] at h
  obtain ⟨h12, hline⟩ := sep_split_last ':' _ _ _ _ h
    (fun hmem => fmtInt_no_colon line1 ':' hmem rfl)
    (fun hmem => fmtInt_no_colon line2 ':' hmem rfl)
  obtain ⟨hpath, hside⟩ := sep_split_last ':' _ _ _ _ h12
    (sideStr_no_colon side1) (sideStr_no_colon side2)
  exact ⟨hpath, sideStr_inj _ _ hside, fmtInt_inj _ _ hline⟩

theorem commentKey_inj (c1 c2 : Comment) (h : commentKey c1 = commentKey c2) :
    c1.path = c2.path ∧ c1.side = c2.side ∧ c1.line = c2.line :=
  anchorKey_components c1.path c2.path c1.side c2.side c1.line c2.line h

theorem byPathAdd_mem_preserve (cadd : Comment) (bp : List (List Char × List Comment)) :
    ∀ (p : List Char) (c : Comment), (∃ g, (p, g) ∈ bp ∧ c ∈ g) →
    ∃ g, (p, g) ∈ byPathAdd bp cadd ∧ c ∈ g := by
  induction bp with
  | nil =>
    intro p c h
    obtain ⟨g, hg, _⟩ := h
    exact absurd hg (List.not_mem_nil _)
  | cons pg rest ih =>
    intro p c h
    obtain ⟨g, hg, hcg⟩ := h
    obtain ⟨q, gq⟩ := pg
    simp only [byPathAdd]
    split
    · rcases List.mem_cons.mp hg with hh | hh
      · rw [Prod.mk.injEq] at hh
        refine ⟨gq ++ [cadd], ?_, List.mem_append_left _ (hh.2 ▸ hcg)⟩
        rw [hh.1]
        exact List.mem_cons_self _ _
      · exact ⟨g, List.mem_cons_of_mem _ hh, hcg⟩
    · rcases List.mem_cons.mp hg with hh | hh
      · rw [Prod.mk.injEq] at hh
        refine ⟨g, ?_, hcg⟩
        rw [hh.1, hh.2]
        exact List.mem_cons_self _ _
      · obtain ⟨g2, hg2, hcg2⟩ := ih p c ⟨g, hh, hcg⟩
        exact ⟨g2, List.mem_cons_of_mem _ hg2, hcg2⟩

theorem byPathAdd_mem_self (c : Comment) (bp : List (List Char × List Comment)) :
    ∃ g, (c.path, g) ∈ byPathAdd bp c ∧ c ∈ g := by
  induction bp with
  | nil => exact ⟨[c], by simp [byPathAdd], List.mem_singleton_self c⟩
  | cons pg rest ih =>
    obtain ⟨q, gq⟩ := pg
    simp only [byPathAdd]
    split
    · rename_i hq
      subst hq
      exact ⟨gq ++ [c], List.mem_cons_self _ _,
        List.mem_append_right _ (List.mem_singleton_self c)⟩
    · obtain ⟨g, hg, hcg⟩ := ih
      exact ⟨g, List.mem_cons_of_mem _ hg, hcg⟩

theorem byPathAdd_paths (c : Comment) (bp : List (List Char × List Comment)) :
    ∀ q ∈ (byPathAdd bp c).map Prod.fst, q ∈ bp.map Prod.fst ∨ q = c.path := by
  induction bp with
  | nil =>
    intro q hq
    right
    simpa [byPathAdd] using hq
  | cons pg rest ih =>
    obtain ⟨p0, g0⟩ := pg
    intro q hq
    simp only [byPathAdd] at hq
    split at hq
    · simp only [List.map_cons, List.mem_cons] at hq ⊢
      rcases hq with h | h
      · exact Or.inl (Or.inl h)
      · exact Or.inl (Or.inr h)
    · simp only [List.map_cons, List.mem_cons] at hq ⊢
      rcases hq with h | h
      · exact Or.inl (Or.inl h)
      · rcases ih q h with h2 | h2
        · exact Or.inl (Or.inr h2)
        · exact Or.inr h2

theorem byPathAdd_nodup (c : Comment) (bp : List (List Char × List Comment))
    (h : (bp.map Prod.fst).Nodup) : ((byPathAdd bp c).map Prod.fst).Nodup := by
  induction bp with
  | nil => simp [byPathAdd]
  | cons pg rest ih =>
    obtain ⟨p0, g0⟩ := pg
    simp only [byPathAdd]
    split
    · simpa using h
    · rename_i hne
      simp only [List.map_cons, List.nodup_cons] at h ⊢
      obtain ⟨hp0, hrest⟩ := h
      refine ⟨?_, ih hrest⟩
      intro hmem
      rcases byPathAdd_paths c rest p0 hmem with h2 | h2
      · exact hp0 h2
      · exact hne h2

/-- Invariant of the grouping list: every entry is a changed path and holds
only comments whose path is that entry's path. -/
def bpGood (items : List FileItem) (bp : List (List Char × List Comment)) : Prop :=
  ∀ pg ∈ bp, fileSet items pg.1 = true ∧ ∀ c' ∈ pg.2, c'.path = pg.1

theorem byPathAdd_good (items : List FileItem) (c : Comment)
    (hc : fileSet items c.path = true) :
    ∀ bp : List (List Char × List Comment),
      bpGood items bp → bpGood items (byPathAdd bp c) := by
  intro bp
  induction bp with
  | nil =>
    intro _ pg hpg
    simp only [byPathAdd, List.mem_singleton] at hpg
    subst hpg
    refine ⟨hc, ?_⟩
    intro c' hc'
    rw [List.mem_singleton] at hc'
    subst hc'
    rfl
  | cons pg0 rest ih =>
    intro hbp
    obtain ⟨p0, g0⟩ := pg0
    have hhead := hbp (p0, g0) (List.mem_cons_self _ _)
    have htail : bpGood items rest := fun pg hpg => hbp pg (List.mem_cons_of_mem _ hpg)
    simp only [byPathAdd]
    split
    · rename_i hp
      intro pg hpg
      rcases List.mem_cons.mp hpg with h | h
      · subst h
        refine ⟨hhead.1, ?_⟩
        intro c' hc'
        rcases List.mem_append.mp hc' with h2 | h2
        · exact hhead.2 c' h2
        · rw [List.mem_singleton] at h2
          subst h2
          exact hp.symm
      · exact htail pg h
    · intro pg hpg
      rcases List.mem_cons.mp hpg with h | h
      · subst h
        exact hhead
      · exact ih htail pg h

theorem phase1_true_preserved (items : List FileItem) (cs : List Comment) :
    ∀ (acc : (List Char → Option Bool) × List (List Char × List Comment))
      (k : List Char), acc.1 k = some true →
    (cs.foldl (phase1Step items) acc).1 k = some true := by
  induction cs with
  | nil => intro acc k h; exact h
  | cons c0 rest ih =>
    intro acc k h
    rw [List.foldl_cons]
    apply ih
    rw [phase1Step]
    split
    · exact h
    · by_cases hk : k = commentKey c0
      · subst hk
        exact mapInsert_self _ _ _
      · rw [show ((mapInsert acc.1 (commentKey c0) true, acc.2) :
            (List Char → Option Bool) × List (List Char × List Comment)).1 k =
            mapInsert acc.1 (commentKey c0) true k from rfl,
          mapInsert_other _ _ _ _ hk]
        exact h

theorem phase1_marks (items : List FileItem) (cs : List Comment) :
    ∀ (acc : (List Char → Option Bool) × List (List Char × List Comment))
      (c : Comment), c ∈ cs → fileSet items c.path = false →
    (cs.foldl (phase1Step items) acc).1 (commentKey c) = some true := by
  induction cs with
  | nil => intro acc c hc _; exact absurd hc (List.not_mem_nil c)
  | cons c0 rest ih =>
    intro acc c hc hfs
    rw [List.foldl_cons]
    rcases List.mem_cons.mp hc with rfl | hmem
    · apply phase1_true_preserved items rest
      rw [phase1Step, if_neg (by simp [hfs])]
      exact mapInsert_self _ _ _
    · exact ih _ c hmem hfs

theorem phase1_bp_good (items : List FileItem) (cs : List Comment) :
    ∀ acc, bpGood items acc.2 →
    bpGood items ((cs.foldl (phase1Step items) acc).2) := by
  induction cs with
  | nil => intro acc h; exact h
  | cons c0 rest ih =>
    intro acc h
    rw [List.foldl_cons]
    apply ih
    rw [phase1Step]
    split
    · rename_i hfs
      exact byPathAdd_good items c0 hfs acc.2 h
    · exact h

theorem phase1_bp_nodup (items : List FileItem) (cs : List Comment) :
    ∀ acc, (acc.2.map Prod.fst).Nodup →
    (((cs.foldl (phase1Step items) acc).2).map Prod.fst).Nodup := by
  induction cs with
  | nil => intro acc h; exact h
  | cons c0 rest ih =>
    intro acc h
    rw [List.foldl_cons]
    apply ih
    rw [phase1Step]
    split
    · exact byPathAdd_nodup c0 acc.2 h
    · exact h

theorem phase1_bp_mem_preserve (items : List FileItem) (cs : List Comment) :
    ∀ acc (p : List Char) (c : Comment), (∃ g, (p, g) ∈ acc.2 ∧ c ∈ g) →
    ∃ g, (p, g) ∈ (cs.foldl (phase1Step items) acc).2 ∧ c ∈ g := by
  induction cs with
  | nil => intro acc p c h; exact h
  | cons c0 rest ih =>
    intro acc p c h
    rw [List.foldl_cons]
    apply ih
    rw [phase1Step]
    split
    · exact byPathAdd_mem_preserve c0 acc.2 p c h
    · exact h

theorem phase1_bp_mem (items : List FileItem) (cs : List Comment) :
    ∀ acc (c : Comment), c ∈ cs → fileSet items c.path = true →
    ∃ g, (c.path, g) ∈ (cs.foldl (phase1Step items) acc).2 ∧ c ∈ g := by
  induction cs with
  | nil => intro acc c hc _; exact absurd hc (List.not_mem_nil c)
  | cons c0 rest ih =>
    intro acc c hc hfs
    rw [List.foldl_cons]
    rcases List.mem_cons.mp hc with rfl | hmem
    · apply phase1_bp_mem_preserve items rest
      rw [phase1Step, if_pos hfs]
      exact byPathAdd_mem_self c acc.2
    · exact ih _ c hmem hfs

theorem phase1Run_marks (items : List FileItem) (cs : List Comment) (c : Comment)
    (hc : c ∈ cs) (hfs : fileSet items c.path = false) :
    (phase1Run items cs).1 (commentKey c) = some true :=
  phase1_marks items cs _ c hc hfs

theorem phase1Run_good (items : List FileItem) (cs : List Comment) :
    bpGood items (phase1Run items cs).2 :=
  phase1_bp_good items cs _ (fun pg hpg => absurd hpg (List.not_mem_nil pg))

theorem phase1Run_nodup (items : List FileItem) (cs : List Comment) :
    ((phase1Run items cs).2.map Prod.fst).Nodup :=
  phase1_bp_nodup items cs _ (by simp)

theorem phase1Run_mem (items : List FileItem) (cs : List Comment) (c : Comment)
    (hc : c ∈ cs) (hfs : fileSet items c.path = true) :
    ∃ g, (c.path, g) ∈ (phase1Run items cs).2 ∧ c ∈ g :=
  phase1_bp_mem items cs _ c hc hfs

/-- The verdict a path group assigns to each of its comments, as a function
of the comment alone: the per-branch value written by `staleForPath`. -/
def staleFun (sgParse : List Char → Except (List Char) (List FileDiff))
    (fetch : List Char → Except (List Char) (List Char))
    (p : List Char) : Comment → Bool :=
  match fetch p with
  | .error _ => fun _ => true
  | .ok d =>
    if trimSpace d = [] then fun _ => true
    else
      match ParseUnifiedDiff sgParse d with
      | .error _ => fun _ => true
      | .ok rows => verdictForRows rows

theorem staleForPath_fst (sgParse : List Char → Except (List Char) (List FileDiff))
    (fetch : List Char → Except (List Char) (List Char))
    (st : List Char → Option Bool) (p : List Char) (g : List Comment) :
    (staleForPath sgParse fetch st p g).1 = foldInsert (staleFun sgParse fetch p) st g := by
  cases hfp : fetch p with
  | error e => simp [staleForPath, staleFun, hfp]
  | ok d =>
    by_cases ht : trimSpace d = []
    · simp [staleForPath, staleFun, hfp, ht]
    · cases hpd : ParseUnifiedDiff sgParse d with
      | error e => simp [staleForPath, staleFun, hfp, ht, hpd]
      | ok rows => simp [staleForPath, staleFun, hfp, ht, hpd]

theorem staleFun_key_uniform (sgParse : List Char → Except (List Char) (List FileDiff))
    (fetch : List Char → Except (List Char) (List Char))
    (p : List Char) (c1 c2 : Comment) (h : commentKey c1 = commentKey c2) :
    staleFun sgParse fetch p c1 = staleFun sgParse fetch p c2 := by
  obtain ⟨_, hside, hline⟩ := commentKey_inj c1 c2 h
  cases hfp : fetch p with
  | error e => simp [staleFun, hfp]
  | ok d =>
    by_cases ht : trimSpace d = []
    · simp [staleFun, hfp, ht]
    · cases hpd : ParseUnifiedDiff sgParse d with
      | error e => simp [staleFun, hfp, ht, hpd]
      | ok rows =>
        simp only [staleFun, hfp, hpd, if_neg ht]
        obtain ⟨p1, s1, l1, b1⟩ := c1
        obtain ⟨p2, s2, l2, b2⟩ := c2
        dsimp only at hside hline
        subst hside
        subst hline
        cases s1 <;> simp [verdictForRows]

theorem commentStaleSpec_of_fileSet (sgParse : List Char → Except (List Char) (List FileDiff))
    (fetch : List Char → Except (List Char) (List Char))
    (items : List FileItem) (c : Comment) (h : fileSet items c.path = true) :
    commentStaleSpec sgParse fetch items c = staleFun sgParse fetch c.path c := by
  rw [commentStaleSpec, if_neg (by simp [h])]
  cases hfp : fetch c.path with
  | error e => simp [staleFun, hfp]
  | ok d =>
    by_cases ht : trimSpace d = []
    · simp [staleFun, hfp, ht]
    · cases hpd : ParseUnifiedDiff sgParse d with
      | error e => simp [staleFun, hfp, ht, hpd]
      | ok rows => simp [staleFun, hfp, ht, hpd]

theorem commentStaleSpec_of_not_fileSet
    (sgParse : List Char → Except (List Char) (List FileDiff))
    (fetch : List Char → Except (List Char) (List Char))
    (items : List FileItem) (c : Comment) (h : fileSet items c.path = false) :
    commentStaleSpec sgParse fetch items c = true := by
  rw [commentStaleSpec, if_pos h]

theorem phase2_frame (sgParse : List Char → Except (List Char) (List FileDiff))
    (fetch : List Char → Except (List Char) (List Char))
    (bp : List (List Char × List Comment)) :
    ∀ (acc : (List Char → Option Bool) × Option (List Char)) (k : List Char),
    (∀ pg ∈ bp, ∀ c' ∈ pg.2, commentKey c' ≠ k) →
    (bp.foldl (phase2Step sgParse fetch) acc).1 k = acc.1 k := by
  induction bp with
  | nil => intro acc k _; rfl
  | cons pg0 rest ih =>
    intro acc k h
    rw [List.foldl_cons, ih _ k (fun pg hpg => h pg (List.mem_cons_of_mem _ hpg))]
    rw [phase2Step]
    dsimp only
    rw [staleForPath_fst]
    exact foldInsert_frame _ pg0.2 acc.1 k (h pg0 (List.mem_cons_self _ _))

theorem phase2_value (sgParse : List Char → Except (List Char) (List FileDiff))
    (fetch : List Char → Except (List Char) (List Char))
    (bp : List (List Char × List Comment)) :
    ∀ (acc : (List Char → Option Bool) × Option (List Char)) (c : Comment),
    (∃ g, (c.path, g) ∈ bp ∧ c ∈ g) →
    (∀ pg ∈ bp, ∀ c' ∈ pg.2, c'.path = pg.1) →
    ((bp.map Prod.fst).Nodup) →
    (bp.foldl (phase2Step sgParse fetch) acc).1 (commentKey c) =
      some (staleFun sgParse fetch c.path c) := by
  induction bp with
  | nil =>
    intro acc c h _ _
    obtain ⟨g, hg, _⟩ := h
    exact absurd hg (List.not_mem_nil _)
  | cons pg0 rest ih =>
    intro acc c hmem hcons hnodup
    obtain ⟨p0, g0⟩ := pg0
    obtain ⟨g, hg, hcg⟩ := hmem
    simp only [List.map_cons, List.nodup_cons] at hnodup
    rw [List.foldl_cons]
    by_cases hp : c.path = p0
    · have hcg0 : c ∈ g0 := by
        rcases List.mem_cons.mp hg with hh | hh
        · rw [Prod.mk.injEq] at hh
          exact hh.2 ▸ hcg
        · exfalso
          apply hnodup.1
          rw [← hp]
          exact List.mem_map_of_mem Prod.fst hh
      have hframe : ∀ pg ∈ rest, ∀ c' ∈ pg.2, commentKey c' ≠ commentKey c := by
        intro pg hpg c' hc' hkey
        have hpath := (commentKey_inj c' c hkey).1
        have hc'path := hcons pg (List.mem_cons_of_mem _ hpg) c' hc'
        have hpp : pg.1 = p0 := by rw [← hc'path, hpath, hp]
        exact hnodup.1 (hpp ▸ List.mem_map_of_mem Prod.fst hpg)
      rw [phase2_frame sgParse fetch rest _ _ hframe]
      rw [phase2Step]
      dsimp only
      rw [staleForPath_fst, hp]
      apply foldInsert_write
      · exact hcg0
      · intro c' _ hkey
        exact staleFun_key_uniform sgParse fetch p0 c' c hkey
    · have hgrest : ∃ g, (c.path, g) ∈ rest ∧ c ∈ g := by
        rcases List.mem_cons.mp hg with hh | hh
        · rw [Prod.mk.injEq] at hh
          exact absurd hh.1 hp
        · exact ⟨g, hh, hcg⟩
      exact ih _ c hgrest (fun pg hpg => hcons pg (List.mem_cons_of_mem _ hpg)) hnodup.2

/-- C3.  buildCommentStaleMap is total on the input comments and exact: for
every comment in the input list, the returned map assigns its anchor key a
verdict, and that verdict is precisely the specified staleness condition —
stale iff the comment's path is not among the changed files, or its file's
diff cannot be fetched, is effectively empty or fails to parse, or the
parsed diff contains no row carrying the comment's exact side and line
number. -/
theorem c3_stale_map_matches_spec
    (sgParse : List Char → Except (List Char) (List FileDiff))
    (fetch : List Char → Except (List Char) (List Char))
    (items : List FileItem) (allComments : List Comment)
    (c : Comment) (hc : c ∈ allComments) :
    (buildCommentStaleMap sgParse fetch items allComments).1 (commentKey c) =
      some (commentStaleSpec sgParse fetch items c) := by
  rw [buildCommentStaleMap, if_neg (List.ne_nil_of_mem hc)]
  by_cases hfs : fileSet items c.path = true
  · rw [phase2_value sgParse fetch _ _ c (phase1Run_mem items allComments c hc hfs)
      (fun pg hpg => (phase1Run_good items allComments pg hpg).2)
      (phase1Run_nodup items allComments)]
    rw [commentStaleSpec_of_fileSet sgParse fetch items c hfs]
  · have hfs2 : fileSet items c.path = false := by
      cases hval : fileSet items c.path
      · rfl
      · exact absurd hval hfs
    have hframe : ∀ pg ∈ (phase1Run items allComments).2, ∀ c' ∈ pg.2,
        commentKey c' ≠ commentKey c := by
      intro pg hpg c' hc' hkey
      have h1 := (phase1Run_good items allComments pg hpg).1
      have h2 := (phase1Run_good items allComments pg hpg).2 c' hc'
      have h3 := (commentKey_inj c' c hkey).1
      have h4 : fileSet items c.path = true := by rw [← h3, h2]; exact h1
      exact Bool.false_ne_true (hfs2 ▸ h4)
    rw [phase2_frame sgParse fetch _ _ _ hframe]
    have hres : ((phase1Run items allComments).1, (none : Option (List Char))).1
        (commentKey c) = (phase1Run items allComments).1 (commentKey c) := rfl
    rw [hres, phase1Run_marks items allComments c hc hfs2,
      commentStaleSpec_of_not_fileSet sgParse fetch items c hfs2]

/-- Witness for C3 at a concrete input: one changed file `a`, one comment on
it, a fetch that fails — the comment's key is present and marked stale. -/
theorem c3_stale_map_matches_spec_witness :
    (buildCommentStaleMap (fun _ => Except.ok ([] : List FileDiff))
        (fun _ => Except.error ['e'])
        [{ path := ['a'] }]
        [{ path := ['a'], side := Side.old, line := 1 }]).1
      (commentKey { path := ['a'], side := Side.old, line := 1 }) = some true := by
  have h := c3_stale_map_matches_spec (fun _ => Except.ok ([] : List FileDiff))
    (fun _ => Except.error ['e']) [{ path := ['a'] }]
    [{ path := ['a'], side := Side.old, line := 1 }]
    { path := ['a'], side := Side.old, line := 1 }
    (List.mem_singleton_self _)
  rw [h]
  simp [commentStaleSpec, fileSet]

end Diffman
